import Mathlib

/-!
The go-sense DHCP server: address pool and lease handler.

A shallow embedding of `pkg/ip/list.go` (the ordered, indexed address pool)
and `pkg/dhcp/handler.go` (the lease allocation handler on top of an etcd
key-value store), followed by theorems about them.

Conventions of the embedding:

* a Go function that mutates its receiver becomes a function returning the
  new receiver state together with its result;
* a Go `error` result and a Go run-time panic are kept apart in `Res`;
* the `for` loop of `ListFromCIDR` is bounded by a fuel argument, `none`
  meaning that the fuel ran out before the loop ended;
* the etcd store is a finite map from keys to values; `allocateIPWith` and
  `releaseIPWith` take the replies of their store calls as arguments, and
  `allocateIP` and `releaseIP` are these over a store that answers every
  call; calls are sequential.
-/

namespace GoSense

/-! ## Results -/

/-- Outcome of a Go call: a normal return carrying a value, a returned
`error` with its message, or a run-time panic. -/
inductive Res (α : Type) where
  | ok (v : α) : Res α
  | err (msg : String) : Res α
  | panic (msg : String) : Res α
  deriving DecidableEq, Repr

/-- Whether the call returned normally with a nil error. -/
def Res.isOk {α : Type} : Res α → Bool
  | .ok _ => true
  | _ => false

/-- Whether the call returned a non-nil error. -/
def Res.isErr {α : Type} : Res α → Bool
  | .err _ => true
  | _ => false

/-- Whether the call panicked. -/
def Res.isPanic {α : Type} : Res α → Bool
  | .panic _ => true
  | _ => false

/-! ## Go maps with string keys -/

/-- Go map lookup `m[k]` with the comma-ok result. -/
def mapGet {β : Type} : List (String × β) → String → Option β
  | [], _ => none
  | (k, v) :: m, key => if k = key then some v else mapGet m key

/-- Go `delete(m, k)`. -/
def mapDelete {β : Type} : List (String × β) → String → List (String × β)
  | [], _ => []
  | (k, v) :: m, key => if k = key then mapDelete m key else (k, v) :: mapDelete m key

/-- Go map assignment `m[k] = v`. -/
def mapSet {β : Type} (m : List (String × β)) (key : String) (v : β) : List (String × β) :=
  (key, v) :: mapDelete m key

/-! ## IPv4 addresses (package `net`) -/

/-- A `net.IP` as far as the server uses it: the nil slice (what `net.ParseIP`
returns for text that is no address) or an IPv4 address, given by its 32-bit
big-endian value.  The 4-byte and the 16-byte form of one IPv4 address are the
same value here, as `String`, `Equal`, `IPNet.Contains` and `dhcp4.IPLess` all
read an address through `To4`. -/
inductive IP where
  | nil : IP
  | v4 (a : Fin 4294967296) : IP
  deriving DecidableEq, Repr

/-- The address `a.b.c.d`. -/
def ipv4 (a b c d : Nat) : IP :=
  .v4 ⟨(a * 16777216 + b * 65536 + c * 256 + d) % 4294967296, Nat.mod_lt _ (by decide)⟩

/-- Decimal text of one byte (`ubtoa` in package `net`). -/
def ubtoa (v : Nat) : List Char :=
  if v < 10 then [Char.ofNat (v + 48)]
  else if v < 100 then [Char.ofNat (v / 10 + 48), Char.ofNat (v % 10 + 48)]
  else [Char.ofNat (v / 100 + 48), Char.ofNat (v / 10 % 10 + 48), Char.ofNat (v % 10 + 48)]

/-- The characters of the dotted-decimal form of a 32-bit address. -/
def dotted (a : Nat) : List Char :=
  ubtoa (a / 16777216 % 256) ++ '.' :: (ubtoa (a / 65536 % 256) ++
    '.' :: (ubtoa (a / 256 % 256) ++ '.' :: ubtoa (a % 256)))

/-- Method `net.IP.String`: dotted decimal for an IPv4 address, `<nil>` for
the nil slice. -/
def IP.String : IP → String
  | .nil => "<nil>"
  | .v4 a => ⟨dotted a.val⟩

/-- Value of a decimal digit character. -/
def digitVal (c : Char) : Option Nat :=
  if 48 ≤ c.toNat ∧ c.toNat ≤ 57 then some (c.toNat - 48) else none

/-- Value of a non-empty string of decimal digits, read left to right with
accumulator `acc`. -/
def dtoi : List Char → Nat → Option Nat
  | [], acc => some acc
  | c :: cs, acc =>
    match digitVal c with
    | some d => dtoi cs (acc * 10 + d)
    | none => none

/-- One field of a dotted-decimal address: one to three digits, no leading
zero, value at most 255. -/
def parseField (cs : List Char) : Option Nat :=
  match cs with
  | [] => none
  | c :: rest =>
    if 3 < cs.length then none
    else if c = '0' ∧ rest ≠ [] then none
    else
      match dtoi cs 0 with
      | some n => if n ≤ 255 then some n else none
      | none => none

/-- The fields of `cs` between occurrences of `sep`. -/
def splitAt (sep : Char) : List Char → List (List Char)
  | [] => [[]]
  | c :: cs =>
    if c = sep then [] :: splitAt sep cs
    else
      match splitAt sep cs with
      | f :: r => (c :: f) :: r
      | [] => [[c]]

/-- Function `net.ParseIP` on IPv4 text: four decimal fields separated by
dots; anything else gives the nil address. -/
def ParseIP (s : String) : IP :=
  match (splitAt '.' s.data).map parseField with
  | [some a, some b, some c, some d] => ipv4 a b c d
  | _ => .nil

/-- Method `net.IP.Mask` with the mask of `ones` leading one bits
(`net.CIDRMask(ones, 32)`): the low `32 - ones` bits are cleared. -/
def IP.Mask : IP → Nat → IP
  | .nil, _ => .nil
  | .v4 a, ones => .v4 ⟨a.val - a.val % 2 ^ (32 - ones), by omega⟩

/-- A `net.IPNet`: the network address and the number of leading one bits of
its mask. -/
structure IPNet where
  IP : IP
  Mask : Nat
  deriving DecidableEq, Repr

/-- Method `net.IPNet.Contains`: the address, masked, equals the network
address, masked; addresses of different length never match. -/
def IPNet.Contains (n : IPNet) (ip : GoSense.IP) : Bool :=
  match n.IP, ip with
  | .v4 _, .v4 _ => decide (n.IP.Mask n.Mask = ip.Mask n.Mask)
  | .nil, .nil => true
  | _, _ => false

/-- Function `net.ParseCIDR` on IPv4 text `a.b.c.d/n` with `n` at most 32:
the address and the network it lies in. -/
def ParseCIDR (s : String) : Option (IP × IPNet) :=
  match splitAt '/' s.data with
  | [addr, len] =>
    match ParseIP ⟨addr⟩, len, dtoi len 0 with
    | .v4 a, _ :: _, some n =>
      if n ≤ 32 then some (.v4 a, ⟨(IP.v4 a).Mask n, n⟩) else none
    | _, _, _ => none
  | _ => none

/-- Function `dhcp4.IPLess`: numeric order of two IPv4 addresses.  On a nil
first argument the loop over its bytes is empty and the answer is false; a nil
second argument under an IPv4 first one is indexed out of range (`none`). -/
def IPLess : IP → IP → Option Bool
  | .nil, _ => some false
  | .v4 _, .nil => none
  | .v4 a, .v4 b => some (decide (a.val < b.val))

/-! ## The address pool (`pkg/ip/list.go`) -/

/-- An element of the `container/list` list of free addresses.  The field
`id` stands for the identity of the element (the `*list.Element` pointer the
index stores); `Value` is the address held. -/
structure Element where
  id : Nat
  Value : IP
  deriving DecidableEq, Repr

/-- The struct `List` of package `ip`: the network, the linked list of free
addresses in iteration order, and the index from the text of an address to
its list element.  The field `next` is the identity the next created element
receives.  The mutex has no counterpart since calls are sequential. -/
structure IPList where
  ipNet : IPNet
  internalList : List Element
  ipIndex : List (String × Nat)
  next : Nat
  deriving DecidableEq, Repr

/-- Method `Remove` of `container/list`: unlink the element with identity `e`. -/
def listRemove (xs : List Element) (e : Nat) : List Element :=
  xs.filter (fun x => decide (x.id ≠ e))

/-- Method `InsertBefore` of `container/list`: link `new` right before the
element with identity `mark`. -/
def listInsertBefore (new : Element) (mark : Nat) : List Element → List Element
  | [] => []
  | x :: xs =>
    if x.id = mark then new :: x :: xs else x :: listInsertBefore new mark xs

/-- Function `inc`: add one to the big-endian bytes, carrying to the left and
dropping the carry out of the first byte. -/
def inc : IP → IP
  | .nil => .nil
  | .v4 a => .v4 ⟨(a.val + 1) % 4294967296, Nat.mod_lt _ (by decide)⟩

/-- Function `copyIP`: a fresh slice with the same bytes. -/
def copyIP (srcIP : IP) : IP := srcIP

/-- Method `List.Remove`. -/
def IPList.Remove (l : IPList) (ip : IP) : IPList :=
  let s := ip.String
  match mapGet l.ipIndex s with
  | some e =>
    { l with ipIndex := mapDelete l.ipIndex s, internalList := listRemove l.internalList e }
  | none => l

/-- Method `List.Contains`. -/
def IPList.Contains (l : IPList) (ip : IP) : Bool :=
  (mapGet l.ipIndex ip.String).isSome

/-- Method `List.Len`. -/
def IPList.Len (l : IPList) : Nat := l.internalList.length

/-- Method `List.First`. -/
def IPList.First (l : IPList) : Res IP :=
  if l.internalList.length = 0 then .err "list is empty"
  else
    match l.internalList.head? with
    | some e => .ok e.Value
    | none => .panic "nil pointer dereference"

/-- The closure `insert` of `List.Add`: link a new element holding `ip` before
the element `beforeElement` and index it under the text of `ip`. -/
def IPList.insert (l : IPList) (ip : IP) (beforeElement : Nat) : IPList :=
  { l with
    internalList := listInsertBefore ⟨l.next, ip⟩ beforeElement l.internalList
    ipIndex := mapSet l.ipIndex ip.String l.next
    next := l.next + 1 }

/-- The scan loop of `List.Add` from element `e` on: the first element at
which `!dhcp4.IPLess(ip, e.Value)` holds, `ok none` when the loop runs off the
end of the list. -/
def addScan (ip : IP) : List Element → Res (Option Element)
  | [] => .ok none
  | e :: es =>
    match IPLess ip e.Value with
    | none => .panic "index out of range"
    | some less => if !less then .ok (some e) else addScan ip es

/-- Method `List.Add`.  After a scan that found no element the new one is
linked before `Back()`; on an empty list `Back()` is nil and `InsertBefore`
dereferences it. -/
def IPList.Add (l : IPList) (rip : IP) : IPList × Res Unit :=
  let ip := copyIP rip
  if !l.ipNet.Contains ip then (l, .err "ip does not exist in list cidr")
  else
    match addScan ip l.internalList with
    | .panic msg => (l, .panic msg)
    | .err msg => (l, .err msg)
    | .ok (some e) => (l.insert ip e.id, .ok ())
    | .ok none =>
      match l.internalList.getLast? with
      | some back => (l.insert ip back.id, .ok ())
      | none => (l, .panic "nil pointer dereference")

/-- State of the loop of `ListFromCIDR`: the list built so far, the lookup
map and the identity for the next element. -/
structure Enum where
  freeIPs : List Element
  lookupMap : List (String × Nat)
  next : Nat
  deriving DecidableEq, Repr

/-- The loop `for ip := ip.Mask(ipNet.Mask); ipNet.Contains(ip); inc(ip)` of
`ListFromCIDR`, at most `fuel` tests of the loop condition. -/
def enumerate (ipNet : IPNet) : Nat → IP → Enum → Option Enum
  | 0, _, _ => none
  | fuel + 1, ip, st =>
    if ipNet.Contains ip then
      let s := ip.String
      enumerate ipNet fuel (inc ip)
        ⟨st.freeIPs ++ [⟨st.next, ParseIP s⟩], mapSet st.lookupMap s st.next, st.next + 1⟩
    else some st

/-- Function `ListFromCIDR`.  The result is `none` when `fuel` loop tests do
not end the enumeration. -/
def ListFromCIDR (fuel : Nat) (cidr : String) : Option (Res IPList) :=
  match ParseCIDR cidr with
  | none => some (.err "invalid CIDR address")
  | some (ip, ipNet) =>
    match enumerate ipNet fuel (ip.Mask ipNet.Mask) ⟨[], [], 0⟩ with
    | none => none
    | some st =>
      let list : IPList := ⟨ipNet, st.freeIPs, st.lookupMap, st.next⟩
      match list.internalList.head? with
      | none => some (.panic "nil pointer dereference")
      | some front =>
        let list := list.Remove front.Value
        match list.internalList.getLast? with
        | none => some (.panic "nil pointer dereference")
        | some back => some (.ok (list.Remove back.Value))

/-! ## The lease handler (`pkg/dhcp/handler.go`) -/

/-- The constant `handleTimeout`, in nanoseconds. -/
def handleTimeout : Nat := 1000000000

/-- The constant `etcdPrefixLease`. -/
def etcdPrefixLease : String := "dhcp::leases::"

/-- Content of the etcd store behind `clientv3.KV`. -/
abbrev KV := List (String × String)

/-- Call `kv.Get(ctx, key)`: the value under `key`, if any (`resp.Kvs` is
empty or has this one entry). -/
def KV.Get (kv : KV) (key : String) : Option String := mapGet kv key

/-- Call `kv.Get(ctx, p, clientv3.WithPrefix())`: the entries whose key starts
with `p`. -/
def KV.GetAll (kv : KV) (p : String) : List (String × String) :=
  kv.filter (fun e => p.data.isPrefixOf e.1.data)

/-- The transaction `If(KeyMissing(key)).Then(OpPut(key, val))`, committed. -/
def KV.PutIfMissing (kv : KV) (key val : String) : KV :=
  match mapGet kv key with
  | none => mapSet kv key val
  | some _ => kv

/-- Call `kv.Delete(ctx, key)`. -/
def KV.Delete (kv : KV) (key : String) : KV := mapDelete kv key

/-- The struct `Handler`, without the logger and the echoed option set. -/
structure Handler where
  ip : IP
  kv : KV
  freeIPs : IPList
  ipToNic : List (String × String)
  leaseDuration : Nat
  deriving DecidableEq, Repr

/-- Function `getLeaseKey`. -/
def getLeaseKey (nic : String) : String := etcdPrefixLease ++ nic

/-- Function `getNicFromLeaseKey` (`strings.TrimPrefix`). -/
def getNicFromLeaseKey (key : String) : String :=
  if etcdPrefixLease.data.isPrefixOf key.data then
    ⟨key.data.drop etcdPrefixLease.data.length⟩
  else key

/-- The loop of `New` over the listed leases: record each in `clients` and
take its address out of the pool. -/
def reconcile : List (String × String) → List (String × String) → IPList →
    List (String × String) × IPList
  | [], clients, freeIPs => (clients, freeIPs)
  | kvs :: rest, clients, freeIPs =>
    let nic := getNicFromLeaseKey kvs.1
    let ip := ParseIP kvs.2
    reconcile rest (mapSet clients ip.String nic) (freeIPs.Remove ip)

/-- Function `New`; `none` when the fuel does not suffice for `ListFromCIDR`. -/
def New (fuel : Nat) (kv : KV) (cidr : String) (ownIP : IP) (leaseDuration : Nat) :
    Option (Res Handler) :=
  let gresp := kv.GetAll "dhcp::leases::"
  match ListFromCIDR fuel cidr with
  | none => none
  | some (.err msg) => some (.err ("failed to create IP list for CIDR: " ++ msg))
  | some (.panic msg) => some (.panic msg)
  | some (.ok freeIPs) =>
    let (clients, freeIPs) := reconcile gresp [] freeIPs
    let freeIPs := freeIPs.Remove ownIP
    some (.ok ⟨ownIP, kv, freeIPs, clients, leaseDuration⟩)

/-- Method `Handler.addToIPtoNicMapping`. -/
def Handler.addToIPtoNicMapping (h : Handler) (nic : String) (ip : IP) : Handler :=
  { h with ipToNic := mapSet h.ipToNic ip.String nic }

/-- Method `Handler.removeFromPtoNicMapping`. -/
def Handler.removeFromPtoNicMapping (h : Handler) (ip : IP) : Handler :=
  { h with ipToNic := mapDelete h.ipToNic ip.String }

/-- Method `Handler.getNextFreeIP`. -/
def Handler.getNextFreeIP (h : Handler) : Res IP :=
  if h.freeIPs.Len = 0 then .err "no free IPs left" else h.freeIPs.First

/-- Method `Handler.isFreeIP`. -/
def Handler.isFreeIP (h : Handler) (ip : IP) : Bool := h.freeIPs.Contains ip

/-- How the store answers a read (`kv.Get`): with the response, or with an
error (`err != nil`: the store is unreachable or the deadline of the call has
passed). -/
inductive ReadReply where
  | answered : ReadReply
  | failed : ReadReply
  deriving DecidableEq, Repr

/-- How the store answers a write (`txn.Commit`, `kv.Delete`): with the
response; with an error and nothing written; or with an error although the
write was applied (the acknowledgement was lost or came after the deadline). -/
inductive WriteReply where
  | answered : WriteReply
  | failed : WriteReply
  | appliedThenFailed : WriteReply
  deriving DecidableEq, Repr

/-- Method `Handler.allocateIP`, the replies of its two store calls given:
`commit` for `txn.Commit()` and `get` for the `kv.Get` that follows.  The
result is the handler afterwards and the returned error. -/
def Handler.allocateIPWith (h : Handler) (commit : WriteReply) (get : ReadReply)
    (nic : String) (ip : IP) : Handler × Res Unit :=
  if !h.freeIPs.Contains ip then (h, .err "ip is already allocated")
  else
    let leaseKey := getLeaseKey nic
    match commit with
    | .failed => (h, .err "failed to store lease")
    | .appliedThenFailed =>
      ({ h with kv := h.kv.PutIfMissing leaseKey ip.String }, .err "failed to store lease")
    | .answered =>
      let h := { h with kv := h.kv.PutIfMissing leaseKey ip.String }
      match get with
      | .failed => (h, .err "failed to load lease")
      | .answered =>
        match h.kv.Get leaseKey with
        | none => (h, .panic "index out of range")
        | some storedIP =>
          if storedIP ≠ ip.String then (h, .err "stored ip does not match wanted IP")
          else
            let h := { h with freeIPs := h.freeIPs.Remove ip }
            let h := h.addToIPtoNicMapping nic ip
            (h, .ok ())

/-- Method `Handler.allocateIP` over a store that answers both calls. -/
def Handler.allocateIP (h : Handler) (nic : String) (ip : IP) : Handler × Res Unit :=
  h.allocateIPWith .answered .answered nic ip

/-- Method `Handler.releaseIP`, the replies of its two store calls given: `get`
for `kv.Get` and `delete` for `kv.Delete`.  The result is the handler
afterwards and the returned error.  Reading `resp.Kvs[0]` of an empty response
is an index out of range. -/
def Handler.releaseIPWith (h : Handler) (get : ReadReply) (delete : WriteReply)
    (nic : String) : Handler × Res Unit :=
  let leaseKey := getLeaseKey nic
  match get with
  | .failed => (h, .err "failed to load lease")
  | .answered =>
    match h.kv.Get leaseKey with
    | none => (h, .panic "index out of range")
    | some value =>
      let ip := ParseIP value
      match delete with
      | .failed => (h, .err "failed to remove lease from store")
      | .appliedThenFailed =>
        ({ h with kv := h.kv.Delete leaseKey }, .err "failed to remove lease from store")
      | .answered =>
        let h := { h with kv := h.kv.Delete leaseKey }
        match h.freeIPs.Add ip with
        | (_, .err msg) => (h, .err ("failed to put IP back to list of free IPs: " ++ msg))
        | (_, .panic msg) => (h, .panic msg)
        | (freeIPs, .ok _) =>
          let h := { h with freeIPs := freeIPs }
          let h := h.removeFromPtoNicMapping ip
          (h, .ok ())

/-- Method `Handler.releaseIP` over a store that answers both calls. -/
def Handler.releaseIP (h : Handler) (nic : String) : Handler × Res Unit :=
  h.releaseIPWith .answered .answered nic

/-- The DHCP message types of `dhcp4`. -/
inductive MessageType where
  | Discover | Offer | Request | Decline | ACK | NAK | Release | Inform
  deriving DecidableEq, Repr

/-- What `ServeDHCP` reads of the incoming packet: the text of the client
hardware address and the client address field. -/
structure Packet where
  CHAddr : String
  CIAddr : IP
  deriving DecidableEq, Repr

/-- What `ServeDHCP` reads of the parsed options: the server identifier when
the option is present, and the requested address (nil when absent). -/
structure Options where
  ServerIdentifier : Option IP
  RequestedIPAddress : IP
  deriving DecidableEq, Repr

/-- What `dhcp4.ReplyPacket` is given: message type, server address, the
client address offered or acknowledged and the lease duration. -/
structure Reply where
  msgType : MessageType
  serverId : IP
  yIAddr : IP
  leaseDuration : Nat
  deriving DecidableEq, Repr

/-- Method `Handler.ServeDHCP`: the handler afterwards and the reply packet,
`ok none` being the nil packet (no reply). -/
def Handler.ServeDHCP (h : Handler) (p : Packet) (msgType : MessageType) (options : Options) :
    Handler × Res (Option Reply) :=
  let nic := p.CHAddr
  match msgType with
  | .Discover =>
    match h.getNextFreeIP with
    | .err _ => (h, .ok none)
    | .panic msg => (h, .panic msg)
    | .ok freeIP => (h, .ok (some ⟨.Offer, h.ip, freeIP, handleTimeout⟩))
  | .Request =>
    let foreign :=
      match options.ServerIdentifier with
      | some server => decide (server ≠ h.ip)
      | none => false
    if foreign then (h, .ok none)
    else
      let reqIP :=
        if options.RequestedIPAddress = .nil then p.CIAddr else options.RequestedIPAddress
      match h.allocateIP nic reqIP with
      | (h1, .panic msg) => (h1, .panic msg)
      | (h1, _) => (h1, .ok (some ⟨.ACK, h1.ip, reqIP, h1.leaseDuration⟩))
  | .Release | .Decline =>
    match h.releaseIP nic with
    | (h1, .panic msg) => (h1, .panic msg)
    | (h1, _) => (h1, .ok none)
  | _ => (h, .ok none)

/-! ## Blocks of addresses -/

/-- The address with the 32-bit value `n`. -/
def IP.ofNat (n : Nat) : IP := .v4 ⟨n % 4294967296, Nat.mod_lt _ (by decide)⟩

/-- The last address of the block of a network (its broadcast address); the
first one (the network address) is `n.IP`. -/
def IPNet.last (n : IPNet) : GoSense.IP :=
  match n.IP with
  | .nil => .nil
  | .v4 a => IP.ofNat (a.val + 2 ^ (32 - n.Mask) - 1)

/-- The list elements with identities `s, ..., s + k - 1`, element `i` holding
the address `b + i`. -/
def blockElems (b s k : Nat) : List Element :=
  (List.range' s k).map (fun i => ⟨i, IP.ofNat (b + i)⟩)

/-- The lookup map after `k` rounds of the loop of `ListFromCIDR` started at
the address `b`. -/
def blockIndex (b : Nat) : Nat → List (String × Nat)
  | 0 => []
  | k + 1 => ((IP.ofNat (b + k)).String, k) :: blockIndex b k

/-! ## Sequences of calls -/

/-- A call of one of the two lease operations of the handler, together with
the replies the store gives to the two store calls it makes. -/
inductive Call where
  | allocateIP (nic : String) (ip : IP) (commit : WriteReply) (get : ReadReply) : Call
  | releaseIP (nic : String) (get : ReadReply) (delete : WriteReply) : Call
  deriving DecidableEq, Repr

/-- Serve one call. -/
def Handler.call (h : Handler) : Call → Handler × Res Unit
  | .allocateIP nic ip commit get => h.allocateIPWith commit get nic ip
  | .releaseIP nic get delete => h.releaseIPWith get delete nic

/-- No `allocateIP` returns a store error after its transaction was committed:
the commit fails with nothing written, or both store calls are answered. -/
def Call.allocSettled : Call → Bool
  | .allocateIP _ _ .failed _ => true
  | .allocateIP _ _ .answered .answered => true
  | .allocateIP _ _ _ _ => false
  | .releaseIP _ _ _ => true

/-- The call does not return a store error after a write of it was applied:
as `allocSettled`, and the delete of a `releaseIP` does not fail after it was
applied. -/
def Call.settled : Call → Bool
  | .releaseIP _ .answered .appliedThenFailed => false
  | c => c.allocSettled

/-- Serve a sequence of calls one after the other.  A panic ends the process:
the state is the one at the panic and the remaining calls are not served. -/
def Handler.run (h : Handler) : List Call → Handler
  | [] => h
  | c :: cs =>
    match h.call c with
    | (h1, .panic _) => h1
    | (h1, _) => h1.run cs

/-- Two handler replicas `a` and `b`, each with its own pool and `ipToNic`,
in front of one store. -/
structure Cluster where
  store : KV
  a : Handler
  b : Handler
  deriving DecidableEq, Repr

/-- One replica (`b` if `onB`, else `a`) serves a call against the current
content of the shared store. -/
def Cluster.step (c : Cluster) (onB : Bool) (call : Call) : Cluster :=
  if onB then
    let h := ({ c.b with kv := c.store }.call call).1
    { c with store := h.kv, b := h }
  else
    let h := ({ c.a with kv := c.store }.call call).1
    { c with store := h.kv, a := h }

/-- Serve a sequence of calls, each tagged with the replica that serves it. -/
def Cluster.run (c : Cluster) : List (Bool × Call) → Cluster
  | [] => c
  | (onB, call) :: rest => (c.step onB call).run rest

/-- No address is the stored value of the leases of two distinct client
identifiers. -/
def NoDoubleLease (kv : KV) : Prop :=
  ∀ (nic1 nic2 : String) (ip : IP),
    kv.Get (getLeaseKey nic1) = some ip.String →
    kv.Get (getLeaseKey nic2) = some ip.String → nic1 = nic2

/-- The invariant of a handler that alone writes the store: distinct keys hold
distinct values, no address of the pool index is a stored value, and every
stored value is the text of the address it parses to. -/
structure Consistent (h : Handler) : Prop where
  distinct : ∀ k1 k2 v, mapGet h.kv k1 = some v → mapGet h.kv k2 = some v → k1 = k2
  unleased : ∀ s e, mapGet h.freeIPs.ipIndex s = some e → ∀ k, mapGet h.kv k ≠ some s
  text : ∀ k v, mapGet h.kv k = some v → (ParseIP v).String = v

/-! ## A sample deployment -/

/-- The client hardware address used by the tests of the handler. -/
def testMAC : String := "00:28:f8:d0:90:35"

/-- The handler `New` builds for the network `10.0.0.0/29` with own address
`10.0.0.1` over an empty store, written out; `sampleHandler_eq_New` checks
it against `New`. -/
def sampleHandler : Handler :=
  { ip := ipv4 10 0 0 1
    kv := []
    freeIPs :=
      { ipNet := ⟨ipv4 10 0 0 0, 29⟩
        internalList := [⟨2, ipv4 10 0 0 2⟩, ⟨3, ipv4 10 0 0 3⟩, ⟨4, ipv4 10 0 0 4⟩,
          ⟨5, ipv4 10 0 0 5⟩, ⟨6, ipv4 10 0 0 6⟩]
        ipIndex := [("10.0.0.6", 6), ("10.0.0.5", 5), ("10.0.0.4", 4), ("10.0.0.3", 3),
          ("10.0.0.2", 2)]
        next := 8 }
    ipToNic := []
    leaseDuration := 43200 }

/-- The handler `New` builds for the network `10.0.0.0/29` with own address
`10.0.0.6` over an empty store, written out; `otherHandler_eq_New` checks it
against `New`. -/
def otherHandler : Handler :=
  { ip := ipv4 10 0 0 6
    kv := []
    freeIPs :=
      { ipNet := ⟨ipv4 10 0 0 0, 29⟩
        internalList := [⟨1, ipv4 10 0 0 1⟩, ⟨2, ipv4 10 0 0 2⟩, ⟨3, ipv4 10 0 0 3⟩,
          ⟨4, ipv4 10 0 0 4⟩, ⟨5, ipv4 10 0 0 5⟩]
        ipIndex := [("10.0.0.5", 5), ("10.0.0.4", 4), ("10.0.0.3", 3), ("10.0.0.2", 2),
          ("10.0.0.1", 1)]
        next := 8 }
    ipToNic := []
    leaseDuration := 43200 }

/-- The pool `ListFromCIDR` builds for `10.0.0.0/29`, written out;
`samplePool_eq_ListFromCIDR` checks it against `ListFromCIDR`. -/
def samplePool : IPList :=
  { ipNet := ⟨ipv4 10 0 0 0, 29⟩
    internalList := [⟨1, ipv4 10 0 0 1⟩, ⟨2, ipv4 10 0 0 2⟩, ⟨3, ipv4 10 0 0 3⟩,
      ⟨4, ipv4 10 0 0 4⟩, ⟨5, ipv4 10 0 0 5⟩, ⟨6, ipv4 10 0 0 6⟩]
    ipIndex := [("10.0.0.6", 6), ("10.0.0.5", 5), ("10.0.0.4", 4), ("10.0.0.3", 3),
      ("10.0.0.2", 2), ("10.0.0.1", 1)]
    next := 8 }

/-- The pool `ListFromCIDR` builds for `10.0.0.0/30`, written out;
`tinyPool_eq_ListFromCIDR` checks it against `ListFromCIDR`. -/
def tinyPool : IPList :=
  { ipNet := ⟨ipv4 10 0 0 0, 30⟩
    internalList := [⟨1, ipv4 10 0 0 1⟩, ⟨2, ipv4 10 0 0 2⟩]
    ipIndex := [("10.0.0.2", 2), ("10.0.0.1", 1)]
    next := 4 }

/-- The handler `New` builds for the network `10.0.0.0/30` with own address
`10.0.0.1` over an empty store: its pool holds the one address `10.0.0.2`;
`tinyHandler_eq_New` checks it against `New`. -/
def tinyHandler : Handler :=
  { ip := ipv4 10 0 0 1
    kv := []
    freeIPs :=
      { ipNet := ⟨ipv4 10 0 0 0, 30⟩
        internalList := [⟨2, ipv4 10 0 0 2⟩]
        ipIndex := [("10.0.0.2", 2)]
        next := 4 }
    ipToNic := []
    leaseDuration := 43200 }

/-- The addresses of a pool in iteration order, front to back. -/
def IPList.values (l : IPList) : List IP := l.internalList.map (fun e => e.Value)

/-- Iterating the pool from front to back yields strictly increasing
addresses. -/
def IPList.Ascending (l : IPList) : Prop :=
  l.values.Pairwise (fun x y => IPLess x y = some true)

instance (l : IPList) : Decidable l.Ascending := by
  unfold IPList.Ascending
  infer_instance

/-! ## Reachable pools, handler invariants and further sample states -/

/-- The pool `ListFromCIDR` returns for the block of `2 ^ (32 - n)` addresses
that starts at the address `b`. -/
def blockPool (b n : Nat) : IPList :=
  { ipNet := ⟨IP.ofNat b, n⟩
    internalList := blockElems b 1 (2 ^ (32 - n) - 2)
    ipIndex := mapDelete (mapDelete (blockIndex b (2 ^ (32 - n))) (IP.ofNat b).String)
      (IP.ofNat (b + (2 ^ (32 - n) - 1))).String
    next := 2 ^ (32 - n) }

/-- A call of one of the two mutating operations of the pool. -/
inductive PoolOp where
  | Remove (ip : IP) : PoolOp
  | Add (ip : IP) : PoolOp
  deriving DecidableEq, Repr

/-- The pool after one call (after an `Add` that fails the pool is as before). -/
def IPList.step (l : IPList) : PoolOp → IPList
  | .Remove ip => l.Remove ip
  | .Add ip => (l.Add ip).1

/-- The pool after a sequence of calls. -/
def IPList.runOps (l : IPList) : List PoolOp → IPList
  | [] => l
  | op :: ops => (l.step op).runOps ops

/-- The index refers to list elements of the right address: element
identities are below `next`, and an element whose identity is stored in the
index under a text holds the address of that text. -/
structure IPList.Linked (l : IPList) : Prop where
  idLt : ∀ x ∈ l.internalList, x.id < l.next
  indexed : ∀ s e, mapGet l.ipIndex s = some e →
    e < l.next ∧ ∀ x ∈ l.internalList, x.id = e → x.Value.String = s

/-- The sample handler in the state that an `allocateIP` leaves when it stops
between its committed write and its local update (it returns a store error
there, or the process crashes): the store holds the lease of `testMAC` for
`10.0.0.2`, the pool still contains `10.0.0.2`. -/
def retryHandler : Handler :=
  { sampleHandler with kv := [("dhcp::leases::00:28:f8:d0:90:35", "10.0.0.2")] }

/-- The sample handler with a lease in the store whose address `192.168.0.7`
lies outside the network `10.0.0.0/29`. -/
def strayHandler : Handler :=
  { sampleHandler with
    kv := [("dhcp::leases::00:28:f8:d0:90:35", "192.168.0.7")]
    ipToNic := [("192.168.0.7", "00:28:f8:d0:90:35")] }

/-- An address the handler may lease: in the network, neither its first nor
its last address, and not the own address of the server. -/
def Host (ipNet : IPNet) (ownIP : IP) (x : IP) : Prop :=
  ipNet.Contains x = true ∧ x ≠ ipNet.IP ∧ x ≠ ipNet.last ∧ x ≠ ownIP

/-- The invariant of a handler that alone writes the store, for the network
`ipNet` and the own address `ownIP`: `Consistent`, and both the texts in the
pool index and the values in the store are texts of host addresses. -/
structure Sound (ipNet : IPNet) (ownIP : IP) (h : Handler) : Prop where
  net : h.freeIPs.ipNet = ipNet
  consistent : Consistent h
  pool : ∀ s e, mapGet h.freeIPs.ipIndex s = some e → ∃ x, s = x.String ∧ Host ipNet ownIP x
  store : ∀ k v, mapGet h.kv k = some v → ∃ x, v = x.String ∧ Host ipNet ownIP x

/-- The map `ipToNic` mirrors the store: it maps a text to a client exactly when the
store holds that text under the lease key of the client. -/
def Mirror (h : Handler) : Prop :=
  ∀ s nic, mapGet h.ipToNic s = some nic ↔ h.kv.Get (getLeaseKey nic) = some s

/-- Serve a sequence of calls that all return: `none` as soon as a call
panics. -/
def Handler.runReturned (h : Handler) : List Call → Option Handler
  | [] => some h
  | c :: cs =>
    match h.call c with
    | (_, .panic _) => none
    | (h1, _) => h1.runReturned cs

/-- A store with one lease under the lease prefix and one foreign entry. -/
def listedStore : KV :=
  [("dhcp::leases::00:28:f8:d0:90:35", "10.0.0.2"), ("foo", "bar")]

/-- The calls of a short session over a store that at times does not answer:
an allocation whose commit fails with nothing written, two allocations, a
release whose delete fails with nothing deleted, and a release. -/
def sampleCalls : List Call :=
  [.allocateIP testMAC (ipv4 10 0 0 2) .failed .answered,
    .allocateIP testMAC (ipv4 10 0 0 2) .answered .answered,
    .allocateIP "00:00:00:00:00:aa" (ipv4 10 0 0 3) .answered .answered,
    .releaseIP testMAC .answered .failed,
    .releaseIP testMAC .answered .answered]

/-- Every element of the list is indexed: the index holds the identity of the
element under the text of its address. -/
def IPList.Listed (l : IPList) : Prop :=
  ∀ x ∈ l.internalList, mapGet l.ipIndex x.Value.String = some x.id

/-! ## Facts about maps -/

theorem mapGet_mapDelete_self {β : Type} (m : List (String × β)) (k : String) :
    mapGet (mapDelete m k) k = none := by
  induction m with
  | nil => rfl
  | cons e m ih =>
    obtain ⟨k1, v⟩ := e
    by_cases h : k1 = k
    · simp [mapDelete, h, ih]
    · simp [mapDelete, h, mapGet, ih]

theorem mapGet_mapDelete_of_ne {β : Type} (m : List (String × β)) (k k1 : String) (h : k1 ≠ k) :
    mapGet (mapDelete m k) k1 = mapGet m k1 := by
  induction m with
  | nil => rfl
  | cons e m ih =>
    obtain ⟨k2, v⟩ := e
    by_cases h2 : k2 = k
    · subst h2
      have h3 : k2 ≠ k1 := fun h4 => h h4.symm
      simp [mapDelete, mapGet, ih, h3]
    · by_cases h3 : k2 = k1
      · subst h3
        simp [mapDelete, h2, mapGet]
      · simp [mapDelete, h2, mapGet, h3, ih]

theorem mapGet_mapSet_self {β : Type} (m : List (String × β)) (k : String) (v : β) :
    mapGet (mapSet m k v) k = some v := by
  simp [mapSet, mapGet]

theorem mapGet_mapSet_of_ne {β : Type} (m : List (String × β)) (k k1 : String) (v : β)
    (h : k1 ≠ k) : mapGet (mapSet m k v) k1 = mapGet m k1 := by
  have h2 : k ≠ k1 := fun h3 => h h3.symm
  simp [mapSet, mapGet, h2, mapGet_mapDelete_of_ne m k k1 h]

theorem mapDelete_of_mapGet_none {β : Type} (m : List (String × β)) (k : String)
    (h : mapGet m k = none) : mapDelete m k = m := by
  induction m with
  | nil => rfl
  | cons e m ih =>
    obtain ⟨k1, v⟩ := e
    by_cases h1 : k1 = k
    · simp [mapGet, h1] at h
    · simp only [mapGet, h1, if_false] at h
      simp [mapDelete, h1, ih h]

/-! ## Facts about address text -/

set_option maxRecDepth 100000 in
theorem parseField_ubtoa : ∀ v, v < 256 → parseField (ubtoa v) = some v := by
  decide

set_option maxRecDepth 100000 in
theorem ubtoa_no_dot : ∀ v, v < 256 → ∀ c ∈ ubtoa v, c ≠ '.' := by
  decide

theorem splitAt_of_no_sep (sep : Char) (xs : List Char) (h : ∀ c ∈ xs, c ≠ sep) :
    splitAt sep xs = [xs] := by
  induction xs with
  | nil => rfl
  | cons c cs ih =>
    have hc : c ≠ sep := h c (List.mem_cons_self c cs)
    have hcs : ∀ d ∈ cs, d ≠ sep := fun d hd => h d (List.mem_cons_of_mem c hd)
    simp [splitAt, hc, ih hcs]

theorem splitAt_append_sep (sep : Char) (xs rest : List Char) (h : ∀ c ∈ xs, c ≠ sep) :
    splitAt sep (xs ++ sep :: rest) = xs :: splitAt sep rest := by
  induction xs with
  | nil => simp [splitAt]
  | cons c cs ih =>
    have hc : c ≠ sep := h c (List.mem_cons_self c cs)
    have hcs : ∀ d ∈ cs, d ≠ sep := fun d hd => h d (List.mem_cons_of_mem c hd)
    simp [splitAt, hc, ih hcs]

theorem ParseIP_String_v4 (a : Fin 4294967296) : ParseIP (IP.v4 a).String = IP.v4 a := by
  have h0 : a.val / 16777216 % 256 < 256 := Nat.mod_lt _ (by decide)
  have h1 : a.val / 65536 % 256 < 256 := Nat.mod_lt _ (by decide)
  have h2 : a.val / 256 % 256 < 256 := Nat.mod_lt _ (by decide)
  have h3 : a.val % 256 < 256 := Nat.mod_lt _ (by decide)
  have hs : splitAt '.' (dotted a.val) =
      [ubtoa (a.val / 16777216 % 256), ubtoa (a.val / 65536 % 256),
        ubtoa (a.val / 256 % 256), ubtoa (a.val % 256)] := by
    unfold dotted
    rw [splitAt_append_sep _ _ _ (ubtoa_no_dot _ h0), splitAt_append_sep _ _ _ (ubtoa_no_dot _ h1),
      splitAt_append_sep _ _ _ (ubtoa_no_dot _ h2), splitAt_of_no_sep _ _ (ubtoa_no_dot _ h3)]
  simp only [ParseIP, IP.String, hs, List.map, parseField_ubtoa _ h0, parseField_ubtoa _ h1,
    parseField_ubtoa _ h2, parseField_ubtoa _ h3, ipv4]
  congr 1
  apply Fin.ext
  have := a.isLt
  simp only
  omega

theorem ParseIP_String (ip : IP) : ParseIP ip.String = ip := by
  cases ip with
  | nil => decide
  | v4 a => exact ParseIP_String_v4 a

theorem String_injective {x y : IP} (h : x.String = y.String) : x = y := by
  rw [← ParseIP_String x, ← ParseIP_String y, h]

/-! ## Sample deployment -/

theorem sampleHandler_eq_New :
    New 10 [] "10.0.0.0/29" (ipv4 10 0 0 1) 43200 = some (.ok sampleHandler) := by
  decide

theorem otherHandler_eq_New :
    New 10 [] "10.0.0.0/29" (ipv4 10 0 0 6) 43200 = some (.ok otherHandler) := by
  decide

theorem tinyHandler_eq_New :
    New 10 [] "10.0.0.0/30" (ipv4 10 0 0 1) 43200 = some (.ok tinyHandler) := by
  decide

theorem samplePool_eq_ListFromCIDR : ListFromCIDR 10 "10.0.0.0/29" = some (.ok samplePool) := by
  decide

theorem tinyPool_eq_ListFromCIDR : ListFromCIDR 10 "10.0.0.0/30" = some (.ok tinyPool) := by
  decide

/-! ## Allocation -/

theorem PutIfMissing_of_none (kv : KV) (key val : String) (h : kv.Get key = none) :
    kv.PutIfMissing key val = mapSet kv key val := by
  simp only [KV.Get] at h
  simp [KV.PutIfMissing, h]

theorem PutIfMissing_of_some (kv : KV) (key val v : String) (h : kv.Get key = some v) :
    kv.PutIfMissing key val = kv := by
  simp only [KV.Get] at h
  simp [KV.PutIfMissing, h]

theorem Remove_of_some (l : IPList) (ip : IP) (e : Nat)
    (hg : mapGet l.ipIndex ip.String = some e) :
    l.Remove ip = { l with ipIndex := mapDelete l.ipIndex ip.String,
                           internalList := listRemove l.internalList e } := by
  simp [IPList.Remove, hg]

theorem Remove_of_none (l : IPList) (ip : IP) (hg : mapGet l.ipIndex ip.String = none) :
    l.Remove ip = l := by
  simp [IPList.Remove, hg]

theorem Contains_Remove_self (l : IPList) (ip : IP) : (l.Remove ip).Contains ip = false := by
  cases hg : mapGet l.ipIndex ip.String with
  | none => simp [Remove_of_none l ip hg, IPList.Contains, hg]
  | some e => simp [Remove_of_some l ip e hg, IPList.Contains, mapGet_mapDelete_self]

theorem Contains_Remove_of_ne (l : IPList) (ip ip2 : IP) (h : ip2 ≠ ip) :
    (l.Remove ip).Contains ip2 = l.Contains ip2 := by
  have hs : ip2.String ≠ ip.String := fun h2 => h (String_injective h2)
  cases hg : mapGet l.ipIndex ip.String with
  | none => simp [Remove_of_none l ip hg]
  | some e => simp [Remove_of_some l ip e hg, IPList.Contains, mapGet_mapDelete_of_ne _ _ _ hs]

theorem allocateIP_eq_of_not_free (h : Handler) (nic : String) (ip : IP)
    (hpool : h.freeIPs.Contains ip = false) :
    h.allocateIP nic ip = (h, .err "ip is already allocated") := by
  simp [Handler.allocateIP, Handler.allocateIPWith, hpool]

theorem allocateIP_eq_of_free (h : Handler) (nic : String) (ip : IP)
    (hpool : h.freeIPs.Contains ip = true) (hnone : h.kv.Get (getLeaseKey nic) = none) :
    h.allocateIP nic ip =
      ({ h with
          kv := mapSet h.kv (getLeaseKey nic) ip.String
          freeIPs := h.freeIPs.Remove ip
          ipToNic := mapSet h.ipToNic ip.String nic }, .ok ()) := by
  have hput := PutIfMissing_of_none h.kv (getLeaseKey nic) ip.String hnone
  have hget : KV.Get (mapSet h.kv (getLeaseKey nic) ip.String) (getLeaseKey nic) =
      some ip.String := mapGet_mapSet_self _ _ _
  simp [Handler.allocateIP, Handler.allocateIPWith, hpool, hput, hget, Handler.addToIPtoNicMapping]

theorem allocateIP_eq_of_other (h : Handler) (nic : String) (ip : IP) (v : String)
    (hpool : h.freeIPs.Contains ip = true) (hget : h.kv.Get (getLeaseKey nic) = some v)
    (hv : v ≠ ip.String) :
    h.allocateIP nic ip = (h, .err "stored ip does not match wanted IP") := by
  have hput := PutIfMissing_of_some h.kv (getLeaseKey nic) ip.String v hget
  simp [Handler.allocateIP, Handler.allocateIPWith, hpool, hput, hget, hv]

theorem allocateIP_eq_of_same (h : Handler) (nic : String) (ip : IP)
    (hpool : h.freeIPs.Contains ip = true)
    (hget : h.kv.Get (getLeaseKey nic) = some ip.String) :
    h.allocateIP nic ip =
      ({ h with
          freeIPs := h.freeIPs.Remove ip
          ipToNic := mapSet h.ipToNic ip.String nic }, .ok ()) := by
  have hput := PutIfMissing_of_some h.kv (getLeaseKey nic) ip.String _ hget
  simp [Handler.allocateIP, Handler.allocateIPWith, hpool, hput, hget, Handler.addToIPtoNicMapping]

theorem allocateIP_not_panic (h : Handler) (nic : String) (ip : IP) :
    (h.allocateIP nic ip).2.isPanic = false := by
  cases hpool : h.freeIPs.Contains ip with
  | false => rw [allocateIP_eq_of_not_free h nic ip hpool]; rfl
  | true =>
    cases hget : h.kv.Get (getLeaseKey nic) with
    | none => rw [allocateIP_eq_of_free h nic ip hpool hget]; rfl
    | some v =>
      by_cases hv : v = ip.String
      · rw [allocateIP_eq_of_same h nic ip hpool (hv ▸ hget)]; rfl
      · rw [allocateIP_eq_of_other h nic ip v hpool hget hv]; rfl

/-- Claim C3: when the pool contains `ip` and the store holds no lease for the
client, `allocateIP` returns no error; afterwards the store holds the value
`ip.String` under the key `etcdPrefixLease ++ nic`, the pool no longer
contains `ip`, every other address is in the pool exactly if it was before,
and `ipToNic` maps `ip.String` to the client. -/
theorem allocateIP_of_free (h : Handler) (nic : String) (ip : IP)
    (hpool : h.freeIPs.Contains ip = true) (hnone : h.kv.Get (getLeaseKey nic) = none) :
    (h.allocateIP nic ip).2 = .ok () ∧
    (h.allocateIP nic ip).1.kv.Get (etcdPrefixLease ++ nic) = some ip.String ∧
    (h.allocateIP nic ip).1.freeIPs.Contains ip = false ∧
    (∀ ip2, ip2 ≠ ip →
      (h.allocateIP nic ip).1.freeIPs.Contains ip2 = h.freeIPs.Contains ip2) ∧
    mapGet (h.allocateIP nic ip).1.ipToNic ip.String = some nic := by
  rw [allocateIP_eq_of_free h nic ip hpool hnone]
  refine ⟨rfl, ?_, Contains_Remove_self _ _, ?_, mapGet_mapSet_self _ _ _⟩
  · exact mapGet_mapSet_self _ _ _
  · intro ip2 h2
    exact Contains_Remove_of_ne _ _ _ h2

theorem allocateIP_of_free_witness :
    sampleHandler.freeIPs.Contains (ipv4 10 0 0 2) = true ∧
    sampleHandler.kv.Get (getLeaseKey testMAC) = none ∧
    (sampleHandler.allocateIP testMAC (ipv4 10 0 0 2)).2 = .ok () ∧
    (sampleHandler.allocateIP testMAC (ipv4 10 0 0 2)).1.kv.Get
      (etcdPrefixLease ++ testMAC) = some (ipv4 10 0 0 2).String ∧
    (sampleHandler.allocateIP testMAC (ipv4 10 0 0 2)).1.freeIPs.Contains (ipv4 10 0 0 2)
      = false ∧
    (∀ ip2, ip2 ≠ ipv4 10 0 0 2 →
      (sampleHandler.allocateIP testMAC (ipv4 10 0 0 2)).1.freeIPs.Contains ip2 =
        sampleHandler.freeIPs.Contains ip2) ∧
    mapGet (sampleHandler.allocateIP testMAC (ipv4 10 0 0 2)).1.ipToNic
      (ipv4 10 0 0 2).String = some testMAC :=
  ⟨by decide, by decide,
    allocateIP_of_free sampleHandler testMAC (ipv4 10 0 0 2) (by decide) (by decide)⟩

/-- Claim C4: `allocateIP` never panics; it returns an error exactly when the pool
does not contain `ip` (message `ip is already allocated`) or the pool contains
it and the store holds a value other than `ip.String` under the lease key of
the client (message of the mismatch); whenever it returns an error the whole
handler state (store, pool, `ipToNic`) is as before. -/
theorem allocateIP_error_iff (h : Handler) (nic : String) (ip : IP) :
    (h.allocateIP nic ip).2.isPanic = false ∧
    ((h.allocateIP nic ip).2.isErr = true ↔
      (h.freeIPs.Contains ip = false ∨
        ∃ v, h.kv.Get (getLeaseKey nic) = some v ∧ v ≠ ip.String)) ∧
    (h.freeIPs.Contains ip = false →
      (h.allocateIP nic ip).2 = .err "ip is already allocated") ∧
    (h.freeIPs.Contains ip = true →
      (∃ v, h.kv.Get (getLeaseKey nic) = some v ∧ v ≠ ip.String) →
      (h.allocateIP nic ip).2 = .err "stored ip does not match wanted IP") ∧
    ((h.allocateIP nic ip).2.isErr = true → (h.allocateIP nic ip).1 = h) := by
  cases hpool : h.freeIPs.Contains ip with
  | false =>
    rw [allocateIP_eq_of_not_free h nic ip hpool]
    simp [Res.isPanic, Res.isErr]
  | true =>
    cases hget : h.kv.Get (getLeaseKey nic) with
    | none =>
      rw [allocateIP_eq_of_free h nic ip hpool hget]
      simp [Res.isPanic, Res.isErr]
    | some v =>
      by_cases hv : v = ip.String
      · rw [allocateIP_eq_of_same h nic ip hpool (hv ▸ hget)]
        simp [Res.isPanic, Res.isErr, hv]
      · rw [allocateIP_eq_of_other h nic ip v hpool hget hv]
        simp [Res.isPanic, Res.isErr, hv]

theorem allocateIP_error_iff_witness :
    (sampleHandler.allocateIP testMAC (ipv4 10 0 0 2)).1.freeIPs.Contains (ipv4 10 0 0 3)
      = true ∧
    (sampleHandler.allocateIP testMAC (ipv4 10 0 0 2)).1.kv.Get (getLeaseKey testMAC)
      = some "10.0.0.2" ∧
    ((sampleHandler.allocateIP testMAC (ipv4 10 0 0 2)).1.allocateIP testMAC
      (ipv4 10 0 0 3)).2 = .err "stored ip does not match wanted IP" ∧
    ((sampleHandler.allocateIP testMAC (ipv4 10 0 0 2)).1.allocateIP testMAC
      (ipv4 10 0 0 3)).1 = (sampleHandler.allocateIP testMAC (ipv4 10 0 0 2)).1 :=
  ⟨by decide, by decide,
    (allocateIP_error_iff (sampleHandler.allocateIP testMAC (ipv4 10 0 0 2)).1 testMAC
      (ipv4 10 0 0 3)).2.2.2.1 (by decide) ⟨"10.0.0.2", by decide, by decide⟩,
    (allocateIP_error_iff (sampleHandler.allocateIP testMAC (ipv4 10 0 0 2)).1 testMAC
      (ipv4 10 0 0 3)).2.2.2.2 (by decide)⟩

/-! ## Requests -/

theorem allocateIP_ip (h : Handler) (nic : String) (q : IP) :
    (h.allocateIP nic q).1.ip = h.ip ∧
    (h.allocateIP nic q).1.leaseDuration = h.leaseDuration := by
  cases hpool : h.freeIPs.Contains q with
  | false => rw [allocateIP_eq_of_not_free h nic q hpool]; exact ⟨rfl, rfl⟩
  | true =>
    cases hget : h.kv.Get (getLeaseKey nic) with
    | none => rw [allocateIP_eq_of_free h nic q hpool hget]; exact ⟨rfl, rfl⟩
    | some v =>
      by_cases hv : v = q.String
      · rw [allocateIP_eq_of_same h nic q hpool (hv ▸ hget)]; exact ⟨rfl, rfl⟩
      · rw [allocateIP_eq_of_other h nic q v hpool hget hv]; exact ⟨rfl, rfl⟩

/-- A REQUEST that is for this server is always acknowledged for the requested
address: the result of `allocateIP` is not looked at. -/
theorem ServeDHCP_Request_reply (h : Handler) (p : Packet) (reqIP : IP)
    (server : Option IP) (hserver : server = none ∨ server = some h.ip) :
    (h.ServeDHCP p .Request ⟨server, reqIP⟩).2 =
      .ok (some ⟨.ACK, h.ip, if reqIP = .nil then p.CIAddr else reqIP, h.leaseDuration⟩) := by
  generalize hq : (if reqIP = IP.nil then p.CIAddr else reqIP) = q
  have hnp := allocateIP_not_panic h p.CHAddr q
  obtain ⟨hip, hld⟩ := allocateIP_ip h p.CHAddr q
  have hrun : (h.ServeDHCP p .Request ⟨server, reqIP⟩) =
      (match h.allocateIP p.CHAddr q with
      | (h1, .panic msg) => (h1, .panic msg)
      | (h1, _) => (h1, .ok (some ⟨.ACK, h1.ip, q, h1.leaseDuration⟩))) := by
    rcases hserver with hs | hs <;> subst hs <;> simp [Handler.ServeDHCP, hq]
  rw [hrun]
  rcases hr : h.allocateIP p.CHAddr q with ⟨h1, r⟩
  rw [hr] at hnp hip hld
  cases r with
  | ok v => simp only [← hip, ← hld]
  | err msg => simp only [← hip, ← hld]
  | panic msg => simp [Res.isPanic] at hnp

/-- Claim C2 (fails on the code): after `10.0.0.2` has been leased to another
client, a REQUEST of `testMAC` for `10.0.0.2` makes `allocateIP` return an
error and change nothing, and `ServeDHCP` still returns an ACK for
`10.0.0.2`. -/
theorem ServeDHCP_Request_acks_failed_allocation :
    ((sampleHandler.allocateIP "00:00:00:00:00:aa" (ipv4 10 0 0 2)).1.allocateIP
      testMAC (ipv4 10 0 0 2)).2 = .err "ip is already allocated" ∧
    (sampleHandler.allocateIP "00:00:00:00:00:aa" (ipv4 10 0 0 2)).1.ServeDHCP
      ⟨testMAC, ipv4 0 0 0 0⟩ .Request ⟨none, ipv4 10 0 0 2⟩ =
      ((sampleHandler.allocateIP "00:00:00:00:00:aa" (ipv4 10 0 0 2)).1,
        .ok (some ⟨.ACK, ipv4 10 0 0 1, ipv4 10 0 0 2, 43200⟩)) := by
  decide

/-! ## Release -/

/-- A release for a client without a lease reads `resp.Kvs[0]` of an empty
response and panics. -/
theorem releaseIP_of_no_lease (h : Handler) (nic : String)
    (hnone : h.kv.Get (getLeaseKey nic) = none) :
    h.releaseIP nic = (h, .panic "index out of range") := by
  simp [Handler.releaseIP, Handler.releaseIPWith, hnone]

/-- Claim C6 (fails on the code): on the freshly built handler, whose store holds no
lease, `releaseIP testMAC` does not return an error but panics. -/
theorem releaseIP_without_lease_panics :
    sampleHandler.kv.Get (getLeaseKey testMAC) = none ∧
    (sampleHandler.releaseIP testMAC).2 = .panic "index out of range" ∧
    (sampleHandler.releaseIP testMAC).2.isErr = false := by
  decide

/-- Claim C5 (fails on the code): on the handler for `10.0.0.0/30` with own address
`10.0.0.1` the only free address `10.0.0.2` is allocated successfully; the
release that follows panics in `Add` on the empty list, after the lease has
been deleted from the store, and the pool does not contain `10.0.0.2`. -/
theorem releaseIP_after_allocateIP_panics :
    (tinyHandler.allocateIP testMAC (ipv4 10 0 0 2)).2 = .ok () ∧
    ((tinyHandler.allocateIP testMAC (ipv4 10 0 0 2)).1.releaseIP testMAC).2 =
      .panic "nil pointer dereference" ∧
    ((tinyHandler.allocateIP testMAC (ipv4 10 0 0 2)).1.releaseIP testMAC).1.freeIPs.Contains
      (ipv4 10 0 0 2) = false ∧
    ((tinyHandler.allocateIP testMAC (ipv4 10 0 0 2)).1.releaseIP testMAC).1.kv.Get
      (getLeaseKey testMAC) = none := by
  decide

/-! ## Order of the pool -/

/-- Claim C7 (fails on the code): in the pool of `10.0.0.0/29`, removing `10.0.0.1`
and adding it back puts it before the last element instead of at the front:
the iteration order is 2, 3, 4, 5, 1, 6, which is not ascending. -/
theorem Add_breaks_ascending_order :
    samplePool.Ascending ∧
    ((samplePool.Remove (ipv4 10 0 0 1)).Add (ipv4 10 0 0 1)).2 = .ok () ∧
    ((samplePool.Remove (ipv4 10 0 0 1)).Add (ipv4 10 0 0 1)).1.values =
      [ipv4 10 0 0 2, ipv4 10 0 0 3, ipv4 10 0 0 4, ipv4 10 0 0 5, ipv4 10 0 0 1,
        ipv4 10 0 0 6] ∧
    ¬ ((samplePool.Remove (ipv4 10 0 0 1)).Add (ipv4 10 0 0 1)).1.Ascending := by
  decide

/-- Claim C8 (fails on the code): in the pool of `10.0.0.0/29`, after removing the
lowest address `10.0.0.1` and adding it back, the pool contains `10.0.0.1`
and `First` returns `10.0.0.2`. -/
theorem First_not_smallest_after_Add :
    samplePool.First = .ok (ipv4 10 0 0 1) ∧
    ((samplePool.Remove (ipv4 10 0 0 1)).Add (ipv4 10 0 0 1)).1.Contains (ipv4 10 0 0 1)
      = true ∧
    ((samplePool.Remove (ipv4 10 0 0 1)).Add (ipv4 10 0 0 1)).1.First
      = .ok (ipv4 10 0 0 2) ∧
    IPLess (ipv4 10 0 0 1) (ipv4 10 0 0 2) = some true := by
  decide

/-- What `Add` does to the pool: nothing (with an error or a panic), or the
closure `insert` for an address of the network. -/
theorem Add_cases (l : IPList) (ip : IP) :
    (∃ msg, l.Add ip = (l, .err msg)) ∨ (∃ msg, l.Add ip = (l, .panic msg)) ∨
    (∃ m, l.Add ip = (l.insert ip m, .ok ()) ∧ l.ipNet.Contains ip = true) := by
  unfold IPList.Add copyIP
  by_cases hc : l.ipNet.Contains ip = true
  · simp only [hc, Bool.not_true, Bool.false_eq_true, if_false]
    cases addScan ip l.internalList with
    | panic msg => exact Or.inr (Or.inl ⟨msg, rfl⟩)
    | err msg => exact Or.inl ⟨msg, rfl⟩
    | ok o =>
      cases o with
      | some e => exact Or.inr (Or.inr ⟨e.id, rfl, trivial⟩)
      | none =>
        cases l.internalList.getLast? with
        | some back => exact Or.inr (Or.inr ⟨back.id, rfl, trivial⟩)
        | none => exact Or.inr (Or.inl ⟨_, rfl⟩)
  · simp only [Bool.not_eq_true] at hc
    simp only [hc, Bool.not_false, if_true]
    exact Or.inl ⟨_, rfl⟩

/-- An address outside the network is refused and the pool stays as it is. -/
theorem Add_of_not_in_network (l : IPList) (ip : IP) (h : l.ipNet.Contains ip = false) :
    l.Add ip = (l, .err "ip does not exist in list cidr") := by
  simp [IPList.Add, copyIP, h]

/-- On an empty list `Add` of an address of the network panics. -/
theorem Add_of_empty (l : IPList) (ip : IP) (h : l.ipNet.Contains ip = true)
    (hempty : l.internalList = []) :
    l.Add ip = (l, .panic "nil pointer dereference") := by
  simp [IPList.Add, copyIP, h, hempty, addScan]

/-- Whenever `Add` returns no error, the pool contains the address afterwards
and every other address is contained exactly if it was before. -/
theorem Add_ok_membership (l l1 : IPList) (ip : IP) (h : l.Add ip = (l1, .ok ())) :
    l1.Contains ip = true ∧ ∀ ip2, ip2 ≠ ip → l1.Contains ip2 = l.Contains ip2 := by
  rcases Add_cases l ip with ⟨msg, ha⟩ | ⟨msg, ha⟩ | ⟨m, ha, _⟩
  · rw [ha] at h; simp at h
  · rw [ha] at h; simp at h
  · rw [ha] at h
    simp only [Prod.mk.injEq, and_true] at h
    subst h
    refine ⟨?_, ?_⟩
    · simp [IPList.Contains, IPList.insert, mapGet_mapSet_self]
    · intro ip2 h2
      have hs : ip2.String ≠ ip.String := fun h3 => h2 (String_injective h3)
      simp [IPList.Contains, IPList.insert, mapGet_mapSet_of_ne _ _ _ _ hs]

theorem addScan_not_panic (ip : IP) (xs : List Element) (h : ∀ e ∈ xs, e.Value ≠ IP.nil) :
    ∃ o, addScan ip xs = .ok o := by
  induction xs with
  | nil => exact ⟨none, rfl⟩
  | cons e es ih =>
    have he : e.Value ≠ IP.nil := h e (List.mem_cons_self e es)
    have hes : ∀ x ∈ es, x.Value ≠ IP.nil := fun x hx => h x (List.mem_cons_of_mem e hx)
    obtain ⟨o, ho⟩ := ih hes
    cases ip with
    | nil => exact ⟨some e, by simp [addScan, IPLess]⟩
    | v4 a =>
      cases hv : e.Value with
      | nil => exact absurd hv he
      | v4 c =>
        by_cases hlt : a.val < c.val
        · exact ⟨o, by simp [addScan, IPLess, hv, hlt, ho]⟩
        · exact ⟨some e, by simp [addScan, IPLess, hv, hlt]⟩

/-- On a list that is not empty and holds addresses only, `Add` of an address
of the network returns no error and is the closure `insert` before some
element. -/
theorem Add_ok_of_nonempty (l : IPList) (ip : IP) (hnet : l.ipNet.Contains ip = true)
    (hvals : ∀ e ∈ l.internalList, e.Value ≠ IP.nil) (hne : l.internalList ≠ []) :
    ∃ m, l.Add ip = (l.insert ip m, .ok ()) := by
  obtain ⟨o, ho⟩ := addScan_not_panic ip l.internalList hvals
  cases o with
  | some e => exact ⟨e.id, by simp [IPList.Add, copyIP, hnet, ho]⟩
  | none =>
    cases hl : l.internalList.getLast? with
    | none => exact absurd (List.getLast?_eq_none_iff.mp hl) hne
    | some back => exact ⟨back.id, by simp [IPList.Add, copyIP, hnet, ho, hl]⟩

/-- Claim C10 (fails on the code): in the pool of `10.0.0.0/30` with both host
addresses removed, adding `10.0.0.1`, which lies in the network, returns
neither an error nor success: it panics, and the pool does not contain the
address. -/
theorem Add_on_empty_pool_panics :
    ((tinyPool.Remove (ipv4 10 0 0 1)).Remove (ipv4 10 0 0 2)).Len = 0 ∧
    tinyPool.ipNet.Contains (ipv4 10 0 0 1) = true ∧
    (((tinyPool.Remove (ipv4 10 0 0 1)).Remove (ipv4 10 0 0 2)).Add (ipv4 10 0 0 1)).2 =
      .panic "nil pointer dereference" ∧
    (((tinyPool.Remove (ipv4 10 0 0 1)).Remove (ipv4 10 0 0 2)).Add (ipv4 10 0 0 1)).1.Contains
      (ipv4 10 0 0 1) = false := by
  decide

/-! ## Release after allocation -/

theorem Remove_ipNet (l : IPList) (ip : IP) : (l.Remove ip).ipNet = l.ipNet := by
  cases hg : mapGet l.ipIndex ip.String with
  | none => rw [Remove_of_none l ip hg]
  | some e => rw [Remove_of_some l ip e hg]

theorem mem_Remove_internalList (l : IPList) (ip : IP) (e : Element)
    (h : e ∈ (l.Remove ip).internalList) : e ∈ l.internalList := by
  cases hg : mapGet l.ipIndex ip.String with
  | none => rwa [Remove_of_none l ip hg] at h
  | some i =>
    rw [Remove_of_some l ip i hg] at h
    exact (List.mem_filter.mp h).1

theorem releaseIP_eq_of_Add_ok (h : Handler) (nic v : String) (l1 : IPList)
    (hget : h.kv.Get (getLeaseKey nic) = some v)
    (hadd : h.freeIPs.Add (ParseIP v) = (l1, .ok ())) :
    h.releaseIP nic =
      ({ h with
          kv := h.kv.Delete (getLeaseKey nic)
          freeIPs := l1
          ipToNic := mapDelete h.ipToNic (ParseIP v).String }, .ok ()) := by
  simp [Handler.releaseIP, Handler.releaseIPWith, hget, hadd, Handler.removeFromPtoNicMapping]

theorem releaseIP_eq_of_Add_err (h : Handler) (nic v msg : String) (l1 : IPList)
    (hget : h.kv.Get (getLeaseKey nic) = some v)
    (hadd : h.freeIPs.Add (ParseIP v) = (l1, .err msg)) :
    h.releaseIP nic =
      ({ h with kv := h.kv.Delete (getLeaseKey nic) },
        .err ("failed to put IP back to list of free IPs: " ++ msg)) := by
  simp [Handler.releaseIP, Handler.releaseIPWith, hget, hadd]

theorem releaseIP_eq_of_Add_panic (h : Handler) (nic v msg : String) (l1 : IPList)
    (hget : h.kv.Get (getLeaseKey nic) = some v)
    (hadd : h.freeIPs.Add (ParseIP v) = (l1, .panic msg)) :
    h.releaseIP nic = ({ h with kv := h.kv.Delete (getLeaseKey nic) }, .panic msg) := by
  simp [Handler.releaseIP, Handler.releaseIPWith, hget, hadd]

/-- After a successful `allocateIP` the pool is the old one without `ip`, the
store holds `ip.String` for the client, and `ip` was in the pool. -/
theorem allocateIP_ok_state (h : Handler) (nic : String) (ip : IP)
    (hok : (h.allocateIP nic ip).2 = .ok ()) :
    h.freeIPs.Contains ip = true ∧
    (h.allocateIP nic ip).1.freeIPs = h.freeIPs.Remove ip ∧
    (h.allocateIP nic ip).1.kv.Get (getLeaseKey nic) = some ip.String ∧
    (h.allocateIP nic ip).1.ipToNic = mapSet h.ipToNic ip.String nic := by
  cases hpool : h.freeIPs.Contains ip with
  | false =>
    rw [allocateIP_eq_of_not_free h nic ip hpool] at hok
    simp at hok
  | true =>
    cases hget : h.kv.Get (getLeaseKey nic) with
    | none =>
      rw [allocateIP_eq_of_free h nic ip hpool hget]
      exact ⟨rfl, rfl, mapGet_mapSet_self _ _ _, rfl⟩
    | some v =>
      by_cases hv : v = ip.String
      · subst hv
        rw [allocateIP_eq_of_same h nic ip hpool hget]
        exact ⟨rfl, rfl, hget, rfl⟩
      · rw [allocateIP_eq_of_other h nic ip v hpool hget hv] at hok
        simp at hok

/-- What does hold of claim C5: when the allocation succeeds for an address of
the network and leaves a pool that is not empty (and holds addresses only),
the release that follows returns no error, the pool contains `ip` again,
`ipToNic` has no entry for `ip.String` and the store holds no lease for the
client. -/
theorem releaseIP_after_allocateIP_of_nonempty (h : Handler) (nic : String) (ip : IP)
    (hok : (h.allocateIP nic ip).2 = .ok ())
    (hnet : h.freeIPs.ipNet.Contains ip = true)
    (hvals : ∀ e ∈ h.freeIPs.internalList, e.Value ≠ IP.nil)
    (hne : (h.allocateIP nic ip).1.freeIPs.internalList ≠ []) :
    ((h.allocateIP nic ip).1.releaseIP nic).2 = .ok () ∧
    ((h.allocateIP nic ip).1.releaseIP nic).1.freeIPs.Contains ip = true ∧
    mapGet ((h.allocateIP nic ip).1.releaseIP nic).1.ipToNic ip.String = none ∧
    ((h.allocateIP nic ip).1.releaseIP nic).1.kv.Get (getLeaseKey nic) = none := by
  obtain ⟨_, hfree, hget, _⟩ := allocateIP_ok_state h nic ip hok
  generalize (h.allocateIP nic ip).1 = h1 at hfree hget hne ⊢
  have hnet1 : h1.freeIPs.ipNet.Contains ip = true := by
    rw [hfree, Remove_ipNet]; exact hnet
  have hvals1 : ∀ e ∈ h1.freeIPs.internalList, e.Value ≠ IP.nil := by
    intro e he
    rw [hfree] at he
    exact hvals e (mem_Remove_internalList _ _ _ he)
  obtain ⟨m, hadd⟩ := Add_ok_of_nonempty h1.freeIPs ip hnet1 hvals1 hne
  have hadd2 : h1.freeIPs.Add (ParseIP ip.String) = (h1.freeIPs.insert ip m, .ok ()) := by
    rw [ParseIP_String]; exact hadd
  rw [releaseIP_eq_of_Add_ok h1 nic ip.String _ hget hadd2]
  refine ⟨rfl, ?_, ?_, mapGet_mapDelete_self _ _⟩
  · simp [IPList.Contains, IPList.insert, mapGet_mapSet_self]
  · simp only [ParseIP_String]
    exact mapGet_mapDelete_self _ _

/-! ## One address, one client -/

theorem getLeaseKey_injective {nic1 nic2 : String}
    (h : getLeaseKey nic1 = getLeaseKey nic2) : nic1 = nic2 := by
  have h2 := congrArg String.data h
  simp only [getLeaseKey, String.data_append] at h2
  exact String.ext (List.append_cancel_left h2)

theorem Consistent_allocateIP (h : Handler) (nic : String) (ip : IP) (hc : Consistent h) :
    Consistent (h.allocateIP nic ip).1 := by
  cases hpool : h.freeIPs.Contains ip with
  | false =>
    rw [allocateIP_eq_of_not_free h nic ip hpool]; exact hc
  | true =>
    have hidx : ∃ e, mapGet h.freeIPs.ipIndex ip.String = some e := by
      simp only [IPList.Contains] at hpool
      exact Option.isSome_iff_exists.mp hpool
    obtain ⟨e, he⟩ := hidx
    cases hget : h.kv.Get (getLeaseKey nic) with
    | some v =>
      by_cases hv : v = ip.String
      · exfalso
        exact hc.unleased _ _ he (getLeaseKey nic) (hv ▸ hget)
      · rw [allocateIP_eq_of_other h nic ip v hpool hget hv]; exact hc
    | none =>
      rw [allocateIP_eq_of_free h nic ip hpool hget]
      have hfresh : ∀ k, mapGet h.kv k ≠ some ip.String := hc.unleased _ _ he
      have hlook : ∀ k v, mapGet (mapSet h.kv (getLeaseKey nic) ip.String) k = some v →
          (k = getLeaseKey nic ∧ v = ip.String) ∨ (k ≠ getLeaseKey nic ∧ mapGet h.kv k = some v) := by
        intro k v hk
        by_cases hkk : k = getLeaseKey nic
        · subst hkk
          rw [mapGet_mapSet_self] at hk
          exact Or.inl ⟨rfl, (Option.some.inj hk).symm⟩
        · rw [mapGet_mapSet_of_ne _ _ _ _ hkk] at hk
          exact Or.inr ⟨hkk, hk⟩
      refine ⟨?_, ?_, ?_⟩
      · intro k1 k2 v h1 h2
        rcases hlook k1 v h1 with ⟨e1, v1⟩ | ⟨n1, g1⟩ <;>
          rcases hlook k2 v h2 with ⟨e2, v2⟩ | ⟨n2, g2⟩
        · rw [e1, e2]
        · exact absurd (v1 ▸ g2) (hfresh k2)
        · exact absurd (v2 ▸ g1) (hfresh k1)
        · exact hc.distinct k1 k2 v g1 g2
      · intro s e2 hs k hk
        rw [Remove_of_some _ _ _ he] at hs
        dsimp only at hs
        by_cases hss : s = ip.String
        · subst hss
          rw [mapGet_mapDelete_self] at hs
          exact Option.noConfusion hs
        · rw [mapGet_mapDelete_of_ne _ _ _ hss] at hs
          rcases hlook k s hk with ⟨_, v1⟩ | ⟨_, g1⟩
          · exact hss v1
          · exact hc.unleased s e2 hs k g1
      · intro k v hk
        rcases hlook k v hk with ⟨_, v1⟩ | ⟨_, g1⟩
        · rw [v1, ParseIP_String]
        · exact hc.text k v g1

theorem Consistent_delete (h : Handler) (key : String) (hc : Consistent h) :
    Consistent { h with kv := h.kv.Delete key } := by
  have hsub : ∀ k v, mapGet (mapDelete h.kv key) k = some v → mapGet h.kv k = some v := by
    intro k v hk
    by_cases hkk : k = key
    · subst hkk
      rw [mapGet_mapDelete_self] at hk
      exact Option.noConfusion hk
    · rwa [mapGet_mapDelete_of_ne _ _ _ hkk] at hk
  refine ⟨?_, ?_, ?_⟩
  · intro k1 k2 v h1 h2
    exact hc.distinct k1 k2 v (hsub _ _ h1) (hsub _ _ h2)
  · intro s e hs k hk
    exact hc.unleased s e hs k (hsub _ _ hk)
  · intro k v hk
    exact hc.text k v (hsub _ _ hk)

theorem Consistent_releaseIP (h : Handler) (nic : String) (hc : Consistent h) :
    Consistent (h.releaseIP nic).1 := by
  cases hget : h.kv.Get (getLeaseKey nic) with
  | none => rw [releaseIP_of_no_lease h nic hget]; exact hc
  | some v =>
    have hdel := Consistent_delete h (getLeaseKey nic) hc
    have hgone : ∀ k, mapGet (mapDelete h.kv (getLeaseKey nic)) k ≠ some v := by
      intro k hk
      by_cases hkk : k = getLeaseKey nic
      · subst hkk
        rw [mapGet_mapDelete_self] at hk
        exact Option.noConfusion hk
      · rw [mapGet_mapDelete_of_ne _ _ _ hkk] at hk
        exact hkk (hc.distinct _ _ v hk hget)
    rcases Add_cases h.freeIPs (ParseIP v) with ⟨msg, ha⟩ | ⟨msg, ha⟩ | ⟨m, ha, _⟩
    · have hrun : (h.releaseIP nic).1 = { h with kv := h.kv.Delete (getLeaseKey nic) } := by
        simp [Handler.releaseIP, Handler.releaseIPWith, hget, ha]
      rw [hrun]; exact hdel
    · have hrun : (h.releaseIP nic).1 = { h with kv := h.kv.Delete (getLeaseKey nic) } := by
        simp [Handler.releaseIP, Handler.releaseIPWith, hget, ha]
      rw [hrun]; exact hdel
    · have hrun : (h.releaseIP nic).1 =
          { h with
            kv := h.kv.Delete (getLeaseKey nic)
            freeIPs := h.freeIPs.insert (ParseIP v) m
            ipToNic := mapDelete h.ipToNic (ParseIP v).String } := by
        simp [Handler.releaseIP, Handler.releaseIPWith, hget, ha, Handler.removeFromPtoNicMapping]
      rw [hrun]
      refine ⟨hdel.distinct, ?_, hdel.text⟩
      intro s e hs k hk
      simp only [IPList.insert, hc.text _ _ hget] at hs
      by_cases hss : s = v
      · subst hss
        exact hgone k hk
      · rw [mapGet_mapSet_of_ne _ _ _ _ hss] at hs
        exact hdel.unleased s e hs k hk

/-- What a call does to the handler, whatever the store replies: nothing; what
`allocateIP` or `releaseIP` does over a store that answers; or only the write
to the store, when the call returns a store error after the write was
applied. -/
theorem call_cases (h : Handler) (c : Call) :
    (h.call c).1 = h ∨
    (∃ (nic : String) (ip : IP), h.call c = h.allocateIP nic ip) ∨
    (∃ nic : String, h.call c = h.releaseIP nic) ∨
    (c.allocSettled = false ∧ ∃ (nic : String) (ip : IP),
      (h.call c).1 = { h with kv := h.kv.PutIfMissing (getLeaseKey nic) ip.String }) ∨
    (c.settled = false ∧ ∃ nic : String,
      (h.call c).1 = { h with kv := h.kv.Delete (getLeaseKey nic) }) := by
  cases c with
  | allocateIP nic ip commit get =>
    cases hpool : h.freeIPs.Contains ip with
    | false =>
      exact Or.inl (by simp [Handler.call, Handler.allocateIPWith, hpool])
    | true =>
      cases commit with
      | failed => exact Or.inl (by simp [Handler.call, Handler.allocateIPWith, hpool])
      | appliedThenFailed =>
        exact Or.inr (Or.inr (Or.inr (Or.inl ⟨rfl, nic, ip,
          by simp [Handler.call, Handler.allocateIPWith, hpool]⟩)))
      | answered =>
        cases get with
        | answered => exact Or.inr (Or.inl ⟨nic, ip, rfl⟩)
        | failed =>
          exact Or.inr (Or.inr (Or.inr (Or.inl ⟨rfl, nic, ip,
            by simp [Handler.call, Handler.allocateIPWith, hpool]⟩)))
  | releaseIP nic get delete =>
    cases get with
    | failed => exact Or.inl (by simp [Handler.call, Handler.releaseIPWith])
    | answered =>
      cases hget : h.kv.Get (getLeaseKey nic) with
      | none => exact Or.inl (by simp [Handler.call, Handler.releaseIPWith, hget])
      | some v =>
        cases delete with
        | answered => exact Or.inr (Or.inr (Or.inl ⟨nic, rfl⟩))
        | failed => exact Or.inl (by simp [Handler.call, Handler.releaseIPWith, hget])
        | appliedThenFailed =>
          exact Or.inr (Or.inr (Or.inr (Or.inr ⟨rfl, nic,
            by simp [Handler.call, Handler.releaseIPWith, hget]⟩)))

theorem allocSettled_of_settled (c : Call) (h : c.settled = true) : c.allocSettled = true := by
  cases c with
  | allocateIP nic ip commit get => simpa [Call.settled] using h
  | releaseIP nic get delete => rfl

theorem Consistent_call (h : Handler) (c : Call) (hset : c.allocSettled = true)
    (hc : Consistent h) : Consistent (h.call c).1 := by
  rcases call_cases h c with h1 | ⟨nic, ip, h1⟩ | ⟨nic, h1⟩ | ⟨h1, _⟩ | ⟨_, nic, h1⟩
  · rw [h1]; exact hc
  · rw [h1]; exact Consistent_allocateIP h nic ip hc
  · rw [h1]; exact Consistent_releaseIP h nic hc
  · rw [hset] at h1; exact absurd h1 (by decide)
  · rw [h1]; exact Consistent_delete h _ hc

theorem Consistent_run (calls : List Call) :
    ∀ h : Handler, (∀ c ∈ calls, c.allocSettled = true) → Consistent h →
      Consistent (h.run calls) := by
  induction calls with
  | nil => intro h _ hc; exact hc
  | cons c cs ih =>
    intro h hset hc
    have hstep : Consistent (h.call c).1 :=
      Consistent_call h c (hset c (List.mem_cons_self c cs)) hc
    have hrest : ∀ d ∈ cs, d.allocSettled = true :=
      fun d hd => hset d (List.mem_cons_of_mem c hd)
    unfold Handler.run
    rcases hr : h.call c with ⟨h1, r⟩
    rw [hr] at hstep
    cases r with
    | ok v => exact ih h1 hrest hstep
    | err msg => exact ih h1 hrest hstep
    | panic msg => exact hstep

theorem New_kv (fuel : Nat) (kv : KV) (cidr : String) (ownIP : IP) (ld : Nat) (h : Handler)
    (hnew : New fuel kv cidr ownIP ld = some (.ok h)) : h.kv = kv := by
  unfold New at hnew
  split at hnew
  · exact Option.noConfusion hnew
  · simp at hnew
  · simp at hnew
  · simp only [Option.some.injEq, Res.ok.injEq] at hnew
    rw [← hnew]

/-- Claim C1, as amended: for a single handler built by `New` over an empty
store, after any sequence of `allocateIP` and `releaseIP` calls in which no
`allocateIP` returns a store error after its transaction was committed (the
store may fail otherwise), no address is the stored value of the leases of two
distinct client identifiers. -/
theorem single_handler_no_double_lease (fuel : Nat) (cidr : String) (ownIP : IP) (ld : Nat)
    (h : Handler) (hnew : New fuel [] cidr ownIP ld = some (.ok h)) (calls : List Call)
    (hset : ∀ c ∈ calls, c.allocSettled = true) :
    NoDoubleLease (h.run calls).kv := by
  have hkv := New_kv fuel [] cidr ownIP ld h hnew
  have h0 : Consistent h := by
    refine ⟨?_, ?_, ?_⟩
    · intro k1 k2 v h1; rw [hkv] at h1; exact Option.noConfusion h1
    · intro s e _ k hk; rw [hkv] at hk; exact Option.noConfusion hk
    · intro k v h1; rw [hkv] at h1; exact Option.noConfusion h1
  have hc := Consistent_run calls h hset h0
  intro nic1 nic2 ip h1 h2
  exact getLeaseKey_injective (hc.distinct _ _ _ h1 h2)

theorem single_handler_no_double_lease_witness :
    New 10 [] "10.0.0.0/29" (ipv4 10 0 0 1) 43200 = some (.ok sampleHandler) ∧
    (∀ c ∈ [Call.allocateIP testMAC (ipv4 10 0 0 2) .answered .answered,
        Call.allocateIP "00:00:00:00:00:aa" (ipv4 10 0 0 2) .answered .answered,
        Call.allocateIP "00:00:00:00:00:aa" (ipv4 10 0 0 3) .failed .answered,
        Call.releaseIP testMAC .answered .appliedThenFailed,
        Call.allocateIP "00:00:00:00:00:aa" (ipv4 10 0 0 2) .answered .answered],
      c.allocSettled = true) ∧
    NoDoubleLease (sampleHandler.run
      [.allocateIP testMAC (ipv4 10 0 0 2) .answered .answered,
        .allocateIP "00:00:00:00:00:aa" (ipv4 10 0 0 2) .answered .answered,
        .allocateIP "00:00:00:00:00:aa" (ipv4 10 0 0 3) .failed .answered,
        .releaseIP testMAC .answered .appliedThenFailed,
        .allocateIP "00:00:00:00:00:aa" (ipv4 10 0 0 2) .answered .answered]).kv :=
  ⟨sampleHandler_eq_New, by decide,
    single_handler_no_double_lease 10 "10.0.0.0/29" (ipv4 10 0 0 1) 43200 sampleHandler
      sampleHandler_eq_New _ (by decide)⟩

/-- Claim C1 (fails as stated), in both of its cases.  Two replicas built by
`New` over the same empty store, with own addresses `10.0.0.1` and `10.0.0.6`,
both hold `10.0.0.2` in their own pool: after the first leases it to one
client, the second leases it to another client.  A single handler whose
`allocateIP` for `testMAC` returns a store error after the commit (the `Get`
that follows fails) keeps `10.0.0.2` in its pool and then leases it to another
client.  Either way the store holds `10.0.0.2` for both clients. -/
theorem double_lease_counterexample :
    New 10 [] "10.0.0.0/29" (ipv4 10 0 0 1) 43200 = some (.ok sampleHandler) ∧
    New 10 [] "10.0.0.0/29" (ipv4 10 0 0 6) 43200 = some (.ok otherHandler) ∧
    ¬ NoDoubleLease
      ((Cluster.mk [] sampleHandler otherHandler).run
        [(false, .allocateIP testMAC (ipv4 10 0 0 2) .answered .answered),
          (true, .allocateIP "00:00:00:00:00:aa" (ipv4 10 0 0 2) .answered .answered)]).store ∧
    (sampleHandler.call (.allocateIP testMAC (ipv4 10 0 0 2) .answered .failed)).2 =
      .err "failed to load lease" ∧
    ¬ NoDoubleLease
      (sampleHandler.run
        [.allocateIP testMAC (ipv4 10 0 0 2) .answered .failed,
          .allocateIP "00:00:00:00:00:aa" (ipv4 10 0 0 2) .answered .answered]).kv := by
  refine ⟨sampleHandler_eq_New, otherHandler_eq_New, ?_, by decide, ?_⟩
  · intro hno
    have h := hno testMAC "00:00:00:00:00:aa" (ipv4 10 0 0 2) (by decide) (by decide)
    revert h
    decide
  · intro hno
    have h := hno testMAC "00:00:00:00:00:aa" (ipv4 10 0 0 2) (by decide) (by decide)
    revert h
    decide

/-! ## The pool of a CIDR block -/

theorem v4_eq_ofNat (a : Fin 4294967296) : IP.v4 a = IP.ofNat a.val := by
  unfold IP.ofNat
  congr 1
  apply Fin.ext
  simp [Nat.mod_eq_of_lt a.isLt]

theorem ofNat_inj {x y : Nat} (hx : x < 4294967296) (hy : y < 4294967296)
    (h : IP.ofNat x = IP.ofNat y) : x = y := by
  unfold IP.ofNat at h
  injection h with h
  have h2 := congrArg Fin.val h
  simp only at h2
  omega

theorem inc_ofNat (x : Nat) : inc (IP.ofNat x) = IP.ofNat (x + 1) := by
  unfold inc IP.ofNat
  simp only
  congr 1
  apply Fin.ext
  simp only
  omega

theorem mask_eq_iff (b x N : Nat) (hN : 0 < N) (hdvd : b % N = 0) :
    b - b % N = x - x % N ↔ b ≤ x ∧ x < b + N := by
  have hxm := Nat.mod_lt x hN
  have hxl := Nat.mod_le x N
  constructor
  · intro h
    omega
  · intro ⟨h1, h2⟩
    have hb : b = N * (b / N) := by
      have := Nat.div_add_mod b N
      omega
    have hx : x = (x - b) + N * (b / N) := by omega
    have hmod : x % N = x - b := by
      rw [hx, Nat.add_mul_mod_self_left, Nat.mod_eq_of_lt (by omega)]
      omega
    omega

theorem Contains_ofNat (b n x : Nat) (hx : x < 4294967296)
    (hb : b + 2 ^ (32 - n) ≤ 4294967296) (hdvd : b % 2 ^ (32 - n) = 0) :
    (IPNet.mk (IP.ofNat b) n).Contains (IP.ofNat x) = decide (b ≤ x ∧ x < b + 2 ^ (32 - n)) := by
  have hN : 0 < 2 ^ (32 - n) := Nat.two_pow_pos _
  have hbl : b < 4294967296 := by omega
  unfold IPNet.Contains IP.ofNat
  simp only [IP.Mask, IP.v4.injEq, Fin.mk.injEq, Nat.mod_eq_of_lt hx, Nat.mod_eq_of_lt hbl]
  rw [decide_eq_decide]
  exact mask_eq_iff b x _ hN hdvd

theorem String_ne_of_ne {x y : Nat} (hx : x < 4294967296) (hy : y < 4294967296) (h : x ≠ y) :
    (IP.ofNat x).String ≠ (IP.ofNat y).String :=
  fun hs => h (ofNat_inj hx hy (String_injective hs))

theorem mapGet_blockIndex (b x : Nat) (hx : x < 4294967296) :
    ∀ k, b + k ≤ 4294967296 →
      mapGet (blockIndex b k) (IP.ofNat x).String =
        if b ≤ x ∧ x < b + k then some (x - b) else none := by
  intro k
  induction k with
  | zero =>
    intro _
    have : ¬ (b ≤ x ∧ x < b + 0) := by omega
    rw [if_neg this]
    rfl
  | succ k ih =>
    intro hk
    have ih2 := ih (by omega)
    by_cases hxk : x = b + k
    · subst hxk
      have : b ≤ b + k ∧ b + k < b + (k + 1) := by omega
      simp [blockIndex, mapGet, this]
    · have hne := String_ne_of_ne (x := b + k) (y := x) (by omega) hx (fun h => hxk h.symm)
      simp only [blockIndex, mapGet, hne, if_false, ih2]
      by_cases hc : b ≤ x ∧ x < b + k
      · have : b ≤ x ∧ x < b + (k + 1) := by omega
        simp [hc, this]
      · have : ¬ (b ≤ x ∧ x < b + (k + 1)) := by omega
        simp [hc, this]

theorem mapGet_blockIndex_nil (b : Nat) :
    ∀ k, mapGet (blockIndex b k) IP.nil.String = none := by
  intro k
  induction k with
  | zero => rfl
  | succ k ih =>
    have hne : (IP.ofNat (b + k)).String ≠ IP.nil.String := by
      intro hs
      have := String_injective hs
      simp [IP.ofNat] at this
    simp only [blockIndex, mapGet, hne, if_false, ih]

theorem blockElems_succ (b k : Nat) :
    blockElems b 0 (k + 1) = blockElems b 0 k ++ [⟨k, IP.ofNat (b + k)⟩] := by
  simp [blockElems, List.range'_concat]

theorem pow_block_le (n : Nat) (hn : 1 ≤ n) : 2 ^ (32 - n) ≤ 2147483648 := by
  have : 2 ^ (32 - n) ≤ 2 ^ 31 := Nat.pow_le_pow_right (by decide) (by omega)
  simpa using this

theorem enumerate_block (b n : Nat) (hn : 1 ≤ n) (hb : b + 2 ^ (32 - n) ≤ 4294967296)
    (hdvd : b % 2 ^ (32 - n) = 0) :
    ∀ j k fuel, k + j = 2 ^ (32 - n) → j < fuel →
      enumerate ⟨IP.ofNat b, n⟩ fuel (IP.ofNat (b + k)) ⟨blockElems b 0 k, blockIndex b k, k⟩ =
        some ⟨blockElems b 0 (2 ^ (32 - n)), blockIndex b (2 ^ (32 - n)), 2 ^ (32 - n)⟩ := by
  have hN := pow_block_le n hn
  intro j
  induction j with
  | zero =>
    intro k fuel hk hfuel
    obtain ⟨f, rfl⟩ : ∃ f, fuel = f + 1 := ⟨fuel - 1, by omega⟩
    have hk2 : k = 2 ^ (32 - n) := by omega
    have hout : (IPNet.mk (IP.ofNat b) n).Contains (IP.ofNat (b + k)) = false := by
      have hmod : IP.ofNat (b + k) = IP.ofNat ((b + k) % 4294967296) := by
        simp [IP.ofNat]
      rw [hmod, Contains_ofNat b n _ (Nat.mod_lt _ (by decide)) hb hdvd]
      simp only [decide_eq_false_iff_not]
      omega
    simp only [enumerate, hout, Bool.false_eq_true, if_false]
    rw [hk2]
  | succ j ih =>
    intro k fuel hk hfuel
    obtain ⟨f, rfl⟩ : ∃ f, fuel = f + 1 := ⟨fuel - 1, by omega⟩
    have hin : (IPNet.mk (IP.ofNat b) n).Contains (IP.ofNat (b + k)) = true := by
      rw [Contains_ofNat b n _ (by omega) hb hdvd]
      simp only [decide_eq_true_eq]
      omega
    have hnone : mapGet (blockIndex b k) (IP.ofNat (b + k)).String = none := by
      rw [mapGet_blockIndex b (b + k) (by omega) k (by omega)]
      have : ¬ (b ≤ b + k ∧ b + k < b + k) := by omega
      simp [this]
    have hset : mapSet (blockIndex b k) (IP.ofNat (b + k)).String k = blockIndex b (k + 1) := by
      simp [mapSet, mapDelete_of_mapGet_none _ _ hnone, blockIndex]
    simp only [enumerate, hin, if_true, ParseIP_String, hset, ← blockElems_succ, inc_ofNat]
    exact ih (k + 1) f (by omega) (by omega)

theorem block_bounds (a n : Nat) (ha : a < 4294967296) (hn : n ≤ 32) :
    (a - a % 2 ^ (32 - n)) % 2 ^ (32 - n) = 0 ∧
    (a - a % 2 ^ (32 - n)) + 2 ^ (32 - n) ≤ 4294967296 := by
  have hM : 2 ^ (32 - n) * 2 ^ n = 4294967296 := by
    rw [← pow_add]
    have : 32 - n + n = 32 := by omega
    rw [this]
    rfl
  have hdm := Nat.div_add_mod a (2 ^ (32 - n))
  have hb : a - a % 2 ^ (32 - n) = 2 ^ (32 - n) * (a / 2 ^ (32 - n)) := by omega
  have hq : a / 2 ^ (32 - n) < 2 ^ n := by
    apply Nat.div_lt_of_lt_mul
    rw [hM]
    exact ha
  have hle : 2 ^ (32 - n) * (a / 2 ^ (32 - n) + 1) ≤ 2 ^ (32 - n) * 2 ^ n :=
    Nat.mul_le_mul_left _ hq
  rw [hb]
  refine ⟨Nat.mul_mod_right _ _, ?_⟩
  rw [Nat.mul_add, Nat.mul_one, hM] at hle
  exact hle

theorem listRemove_blockElems_of_not_mem (b s k e : Nat) (h : e < s ∨ s + k ≤ e) :
    listRemove (blockElems b s k) e = blockElems b s k := by
  unfold listRemove
  rw [List.filter_eq_self]
  intro x hx
  simp only [blockElems, List.mem_map, List.mem_range'_1] at hx
  obtain ⟨i, hi, rfl⟩ := hx
  simp only [ne_eq, decide_not, Bool.not_eq_true', decide_eq_false_iff_not]
  omega

theorem blockElems_cons (b s k : Nat) :
    blockElems b s (k + 1) = ⟨s, IP.ofNat (b + s)⟩ :: blockElems b (s + 1) k := by
  simp [blockElems, List.range'_succ]

theorem blockElems_concat (b s k : Nat) :
    blockElems b s (k + 1) = blockElems b s k ++ [⟨s + k, IP.ofNat (b + (s + k))⟩] := by
  simp [blockElems, List.range'_concat]

theorem ParseCIDR_some {cidr : String} {ip : IP} {ipNet : IPNet}
    (h : ParseCIDR cidr = some (ip, ipNet)) :
    ∃ a : Fin 4294967296, ip = IP.v4 a ∧ ipNet.IP = (IP.v4 a).Mask ipNet.Mask ∧
      ipNet.Mask ≤ 32 := by
  unfold ParseCIDR at h
  split at h
  · split at h
    · split at h
      · simp only [Option.some.injEq, Prod.mk.injEq] at h
        obtain ⟨h1, h2⟩ := h
        subst h2
        exact ⟨_, h1.symm, rfl, by assumption⟩
      · exact Option.noConfusion h
    · exact Option.noConfusion h
  · exact Option.noConfusion h

theorem listRemove_cons_self (e : Nat) (v : IP) (xs : List Element) :
    listRemove (⟨e, v⟩ :: xs) e = listRemove xs e := by
  simp [listRemove]

theorem listRemove_concat_self (e : Nat) (v : IP) (xs : List Element) :
    listRemove (xs ++ [⟨e, v⟩]) e = listRemove xs e := by
  simp [listRemove, List.filter_append]

/-- The pool `ListFromCIDR` builds for the block of `2 ^ (32 - n)` addresses
that starts at `b`: elements 1 to `2 ^ (32 - n) - 2` of the enumeration. -/
theorem ListFromCIDR_block (fuel : Nat) (cidr : String) (ip : IP) (b n : Nat)
    (hparse : ParseCIDR cidr = some (ip, ⟨IP.ofNat b, n⟩))
    (hmask : ip.Mask n = IP.ofNat b)
    (hn1 : 1 ≤ n) (hn31 : n ≤ 31) (hb : b + 2 ^ (32 - n) ≤ 4294967296)
    (hdvd : b % 2 ^ (32 - n) = 0) (hfuel : 2 ^ (32 - n) < fuel) :
    ListFromCIDR fuel cidr = some (.ok
      { ipNet := ⟨IP.ofNat b, n⟩
        internalList := blockElems b 1 (2 ^ (32 - n) - 2)
        ipIndex := mapDelete (mapDelete (blockIndex b (2 ^ (32 - n))) (IP.ofNat b).String)
          (IP.ofNat (b + (2 ^ (32 - n) - 1))).String
        next := 2 ^ (32 - n) }) := by
  have h2 : 2 ≤ 2 ^ (32 - n) := by
    have : 2 ^ 1 ≤ 2 ^ (32 - n) := Nat.pow_le_pow_right (by decide) (by omega)
    simpa using this
  obtain ⟨N, hN⟩ : ∃ N, 2 ^ (32 - n) = N + 2 := ⟨2 ^ (32 - n) - 2, by omega⟩
  have henum := enumerate_block b n hn1 hb hdvd (2 ^ (32 - n)) 0 fuel (by omega) hfuel
  rw [show blockElems b 0 0 = [] from rfl, show blockIndex b 0 = [] from rfl,
    Nat.add_zero] at henum
  have hfront : mapGet (blockIndex b (2 ^ (32 - n))) (IP.ofNat b).String = some 0 := by
    rw [mapGet_blockIndex b b (by omega) _ hb]
    have : b ≤ b ∧ b < b + 2 ^ (32 - n) := by omega
    simp [this]
  have hback : mapGet (mapDelete (blockIndex b (2 ^ (32 - n))) (IP.ofNat b).String)
      (IP.ofNat (b + (N + 1))).String = some (N + 1) := by
    rw [mapGet_mapDelete_of_ne _ _ _ (String_ne_of_ne (by omega) (by omega) (by omega)),
      mapGet_blockIndex b _ (by omega) _ hb]
    have : b ≤ b + (N + 1) ∧ b + (N + 1) < b + 2 ^ (32 - n) := by omega
    simp [this]
  have hl1 : listRemove (blockElems b 0 (N + 2)) 0 = blockElems b 1 (N + 1) := by
    rw [blockElems_cons, listRemove_cons_self]
    exact listRemove_blockElems_of_not_mem b 1 (N + 1) 0 (by omega)
  have hl2 : listRemove (blockElems b 1 (N + 1)) (N + 1) = blockElems b 1 N := by
    rw [blockElems_concat, Nat.add_comm 1 N, listRemove_concat_self]
    exact listRemove_blockElems_of_not_mem b 1 N (N + 1) (by omega)
  have hhead : (blockElems b 0 (N + 2)).head? = some ⟨0, IP.ofNat b⟩ := by
    rw [blockElems_cons]; rfl
  have hlast : (blockElems b 1 (N + 1)).getLast? = some ⟨N + 1, IP.ofNat (b + (N + 1))⟩ := by
    rw [blockElems_concat, List.getLast?_concat, Nat.add_comm 1 N]
  have hN1 : 2 ^ (32 - n) - 1 = N + 1 := by omega
  have hN2 : 2 ^ (32 - n) - 2 = N := by omega
  rw [hN1, hN2]
  rw [hN] at hfront hback henum ⊢
  have hr1 : (IPList.mk ⟨IP.ofNat b, n⟩ (blockElems b 0 (N + 2)) (blockIndex b (N + 2))
      (N + 2)).Remove (IP.ofNat b) =
      ⟨⟨IP.ofNat b, n⟩, blockElems b 1 (N + 1),
        mapDelete (blockIndex b (N + 2)) (IP.ofNat b).String, N + 2⟩ := by
    rw [Remove_of_some _ _ 0 hfront, hl1]
  have hr2 : (IPList.mk ⟨IP.ofNat b, n⟩ (blockElems b 1 (N + 1))
      (mapDelete (blockIndex b (N + 2)) (IP.ofNat b).String) (N + 2)).Remove
        (IP.ofNat (b + (N + 1))) =
      ⟨⟨IP.ofNat b, n⟩, blockElems b 1 N,
        mapDelete (mapDelete (blockIndex b (N + 2)) (IP.ofNat b).String)
          (IP.ofNat (b + (N + 1))).String, N + 2⟩ := by
    rw [Remove_of_some _ _ (N + 1) hback, hl2]
  unfold ListFromCIDR
  simp only [hparse, hmask, henum, hhead, hr1, hlast, hr2]

theorem ofNat_ne_iff {x y : Nat} (hx : x < 4294967296) (hy : y < 4294967296) :
    IP.ofNat x ≠ IP.ofNat y ↔ x ≠ y :=
  ⟨fun h hxy => h (hxy ▸ rfl), fun h hxy => h (ofNat_inj hx hy hxy)⟩

theorem last_ofNat (b n : Nat) (hb : b + 2 ^ (32 - n) ≤ 4294967296) :
    (IPNet.mk (IP.ofNat b) n).last = IP.ofNat (b + (2 ^ (32 - n) - 1)) := by
  have hN : 0 < 2 ^ (32 - n) := Nat.two_pow_pos _
  have hbl : b % 4294967296 = b := Nat.mod_eq_of_lt (by omega)
  simp only [IPNet.last, IP.ofNat, hbl]
  congr 2
  omega

/-- Claim C9: for every CIDR text that parses as an IPv4 network with a prefix
length from 1 to 30, `ListFromCIDR` (given fuel for the `2 ^ (32 - p)`
addresses of the block) returns a pool that contains an address exactly when
the network contains it and it is neither the first nor the last address of
the block, and whose `Len` is `2 ^ (32 - p) - 2`. -/
theorem ListFromCIDR_contains_iff (fuel : Nat) (cidr : String) (ip : IP) (ipNet : IPNet)
    (hparse : ParseCIDR cidr = some (ip, ipNet))
    (hp1 : 1 ≤ ipNet.Mask) (hp30 : ipNet.Mask ≤ 30) (hfuel : 2 ^ (32 - ipNet.Mask) < fuel) :
    ∃ l, ListFromCIDR fuel cidr = some (.ok l) ∧
      (∀ x : IP, l.Contains x = true ↔
        (ipNet.Contains x = true ∧ x ≠ ipNet.IP ∧ x ≠ ipNet.last)) ∧
      l.Len = 2 ^ (32 - ipNet.Mask) - 2 := by
  obtain ⟨a, hip, hnet, hle⟩ := ParseCIDR_some hparse
  obtain ⟨nip, n⟩ := ipNet
  simp only at hnet hle hp1 hp30 hfuel ⊢
  subst hip
  have hmask : (IP.v4 a).Mask n = IP.ofNat (a.val - a.val % 2 ^ (32 - n)) := by
    simp only [IP.Mask]
    exact v4_eq_ofNat _
  rw [hmask] at hnet
  subst hnet
  obtain ⟨hdvd, hb⟩ := block_bounds a.val n a.isLt hle
  generalize a.val - a.val % 2 ^ (32 - n) = b at hparse hmask hdvd hb ⊢
  have hN : 4 ≤ 2 ^ (32 - n) := by
    have : 2 ^ 2 ≤ 2 ^ (32 - n) := Nat.pow_le_pow_right (by decide) (by omega)
    simpa using this
  refine ⟨_, ListFromCIDR_block fuel cidr _ b n hparse hmask hp1 (by omega) hb hdvd hfuel, ?_, ?_⟩
  · intro x
    rw [last_ofNat b n hb]
    cases x with
    | nil =>
      have h1 : IP.nil.String ≠ (IP.ofNat b).String := fun h => by
        have := String_injective h
        simp [IP.ofNat] at this
      have h2 : IP.nil.String ≠ (IP.ofNat (b + (2 ^ (32 - n) - 1))).String := fun h => by
        have := String_injective h
        simp [IP.ofNat] at this
      have hR : (IPNet.mk (IP.ofNat b) n).Contains IP.nil = false := rfl
      rw [hR]
      simp only [IPList.Contains]
      rw [mapGet_mapDelete_of_ne _ _ _ h2, mapGet_mapDelete_of_ne _ _ _ h1,
        mapGet_blockIndex_nil]
      constructor
      · intro h
        exact absurd h (by decide)
      · intro h
        exact absurd h.1 (by decide)
    | v4 y =>
      have hy := y.isLt
      rw [v4_eq_ofNat y, Contains_ofNat b n y.val hy hb hdvd,
        ofNat_ne_iff hy (by omega), ofNat_ne_iff hy (by omega)]
      simp only [IPList.Contains, decide_eq_true_eq]
      by_cases h1 : y.val = b
      · rw [h1, mapGet_mapDelete_of_ne _ _ _ (String_ne_of_ne (by omega) (by omega) (by omega)),
          mapGet_mapDelete_self]
        simp
      · by_cases h2 : y.val = b + (2 ^ (32 - n) - 1)
        · rw [h2, mapGet_mapDelete_self]
          simp
        · rw [mapGet_mapDelete_of_ne _ _ _ (String_ne_of_ne hy (by omega) h2),
            mapGet_mapDelete_of_ne _ _ _ (String_ne_of_ne hy (by omega) h1),
            mapGet_blockIndex b y.val hy _ hb]
          by_cases hc : b ≤ y.val ∧ y.val < b + 2 ^ (32 - n)
          · simp [hc, h1, h2]
          · simp [hc]
  · simp [IPList.Len, blockElems]

theorem ListFromCIDR_contains_iff_witness :
    ParseCIDR "10.0.0.0/24" = some (ipv4 10 0 0 0, ⟨ipv4 10 0 0 0, 24⟩) ∧
    ∃ l, ListFromCIDR 257 "10.0.0.0/24" = some (.ok l) ∧
      (∀ x : IP, l.Contains x = true ↔
        ((IPNet.mk (ipv4 10 0 0 0) 24).Contains x = true ∧ x ≠ ipv4 10 0 0 0 ∧
          x ≠ (IPNet.mk (ipv4 10 0 0 0) 24).last)) ∧
      l.Len = 2 ^ (32 - 24) - 2 :=
  ⟨by decide,
    ListFromCIDR_contains_iff 257 "10.0.0.0/24" (ipv4 10 0 0 0) ⟨ipv4 10 0 0 0, 24⟩
      (by decide) (by decide) (by decide) (by decide)⟩

/-! ## What `ListFromCIDR` returns -/

theorem Mask_zero (x : Fin 4294967296) : (IP.v4 x).Mask 0 = IP.ofNat 0 := by
  have := x.isLt
  simp only [IP.Mask, IP.ofNat]
  congr 1
  apply Fin.ext
  simp only [Nat.sub_zero, Nat.reducePow, Nat.zero_mod]
  omega

theorem enumerate_prefix_zero (a : Fin 4294967296) :
    ∀ (fuel : Nat) (y : Fin 4294967296) (st : Enum),
      enumerate ⟨(IP.v4 a).Mask 0, 0⟩ fuel (IP.v4 y) st = none := by
  intro fuel
  induction fuel with
  | zero => intro y st; rfl
  | succ f ih =>
    intro y st
    have hin : (IPNet.mk ((IP.v4 a).Mask 0) 0).Contains (IP.v4 y) = true := by
      rw [Mask_zero]
      show decide ((IP.ofNat 0).Mask 0 = (IP.v4 y).Mask 0) = true
      rw [Mask_zero y, show (IP.ofNat 0).Mask 0 = IP.ofNat 0 from Mask_zero _]
      exact decide_eq_true rfl
    simp only [enumerate, hin, if_true]
    exact ih _ _

/-- For a network of prefix length 0 the loop of `ListFromCIDR` never ends:
no amount of fuel gives a result. -/
theorem ListFromCIDR_prefix_zero (cidr : String) (ip : IP) (ipNet : IPNet)
    (hparse : ParseCIDR cidr = some (ip, ipNet)) (hzero : ipNet.Mask = 0) :
    ∀ fuel, ListFromCIDR fuel cidr = none := by
  intro fuel
  obtain ⟨a, hip, hnet, _⟩ := ParseCIDR_some hparse
  obtain ⟨nip, n⟩ := ipNet
  simp only at hnet hzero
  subst hzero
  subst hnet
  subst hip
  have hm : (IP.v4 a).Mask 0 = IP.v4 ⟨0, by decide⟩ := by
    rw [Mask_zero]; rfl
  unfold ListFromCIDR
  simp only [hparse]
  rw [hm]
  have := enumerate_prefix_zero a fuel ⟨0, by decide⟩ ⟨[], [], 0⟩
  rw [hm] at this
  rw [this]

theorem enumerate_mono (ipNet : IPNet) :
    ∀ (f : Nat) (ip : IP) (st r : Enum), enumerate ipNet f ip st = some r →
      ∀ f2, f ≤ f2 → enumerate ipNet f2 ip st = some r := by
  intro f
  induction f with
  | zero => intro ip st r h; exact absurd h (by simp [enumerate])
  | succ f ih =>
    intro ip st r h f2 hf
    obtain ⟨g, rfl⟩ : ∃ g, f2 = g + 1 := ⟨f2 - 1, by omega⟩
    by_cases hc : ipNet.Contains ip = true
    · simp only [enumerate, hc, if_true] at h ⊢
      exact ih _ _ _ h g (by omega)
    · simp only [enumerate, hc, if_false] at h ⊢
      exact h

theorem ListFromCIDR_mono (cidr : String) (f f2 : Nat) (r : Res IPList)
    (h : ListFromCIDR f cidr = some r) (hf : f ≤ f2) : ListFromCIDR f2 cidr = some r := by
  unfold ListFromCIDR at h ⊢
  cases hp : ParseCIDR cidr with
  | none => simpa [hp] using h
  | some pr =>
    obtain ⟨ip, ipNet⟩ := pr
    simp only [hp] at h ⊢
    cases he : enumerate ipNet f (ip.Mask ipNet.Mask) ⟨[], [], 0⟩ with
    | none => simp [he] at h
    | some st =>
      rw [enumerate_mono ipNet f _ _ st he f2 hf]
      simpa [he] using h

/-- What `ParseCIDR` returns: a network whose address `b` is a multiple of the
block size `2 ^ (32 - n)`, with the whole block below `2 ^ 32`. -/
theorem ParseCIDR_block {cidr : String} {ip : IP} {ipNet : IPNet}
    (hparse : ParseCIDR cidr = some (ip, ipNet)) :
    ∃ b, ipNet = ⟨IP.ofNat b, ipNet.Mask⟩ ∧ ip.Mask ipNet.Mask = IP.ofNat b ∧
      ipNet.Mask ≤ 32 ∧ b % 2 ^ (32 - ipNet.Mask) = 0 ∧
      b + 2 ^ (32 - ipNet.Mask) ≤ 4294967296 := by
  obtain ⟨a, hip, hnet, hle⟩ := ParseCIDR_some hparse
  obtain ⟨nip, n⟩ := ipNet
  simp only at hnet hle ⊢
  subst hip
  have hmask : (IP.v4 a).Mask n = IP.ofNat (a.val - a.val % 2 ^ (32 - n)) := by
    simp only [IP.Mask]
    exact v4_eq_ofNat _
  obtain ⟨hdvd, hb⟩ := block_bounds a.val n a.isLt hle
  exact ⟨_, by rw [hnet, hmask], hmask, hle, hdvd, hb⟩

theorem ListFromCIDR_eq_blockPool (fuel : Nat) (cidr : String) (ip : IP) (b n : Nat)
    (hparse : ParseCIDR cidr = some (ip, ⟨IP.ofNat b, n⟩))
    (hmask : ip.Mask n = IP.ofNat b)
    (hn1 : 1 ≤ n) (hn31 : n ≤ 31) (hb : b + 2 ^ (32 - n) ≤ 4294967296)
    (hdvd : b % 2 ^ (32 - n) = 0) (hfuel : 2 ^ (32 - n) < fuel) :
    ListFromCIDR fuel cidr = some (.ok (blockPool b n)) :=
  ListFromCIDR_block fuel cidr ip b n hparse hmask hn1 hn31 hb hdvd hfuel

/-- For a network of prefix length 32 the list holds one element; after the
removal of the front element `Back()` is nil and its dereference panics. -/
theorem ListFromCIDR_prefix_32 (fuel : Nat) (cidr : String) (ip : IP) (b : Nat)
    (hparse : ParseCIDR cidr = some (ip, ⟨IP.ofNat b, 32⟩))
    (hmask : ip.Mask 32 = IP.ofNat b) (hb : b + 2 ^ (32 - 32) ≤ 4294967296)
    (hfuel : 1 < fuel) :
    ListFromCIDR fuel cidr = some (.panic "nil pointer dereference") := by
  have henum := enumerate_block b 32 (by decide) hb (Nat.mod_one b) 1 0 fuel (by decide)
    (by simpa using hfuel)
  rw [show blockElems b 0 0 = [] from rfl, show blockIndex b 0 = [] from rfl,
    Nat.add_zero] at henum
  have hpow : 2 ^ (32 - 32) = 1 := by decide
  rw [hpow] at henum hb
  have hfront : mapGet (blockIndex b 1) (IP.ofNat b).String = some 0 := by
    simp [blockIndex, mapGet]
  have hr1 : (IPList.mk ⟨IP.ofNat b, 32⟩ (blockElems b 0 1) (blockIndex b 1) 1).Remove
      (IP.ofNat b) =
      ⟨⟨IP.ofNat b, 32⟩, [], mapDelete (blockIndex b 1) (IP.ofNat b).String, 1⟩ := by
    rw [Remove_of_some _ _ 0 hfront]
    simp [blockElems, listRemove]
  have hhead : (blockElems b 0 1).head? = some ⟨0, IP.ofNat b⟩ := rfl
  unfold ListFromCIDR
  simp only [hparse, hmask, henum, hhead, hr1, List.getLast?_nil]

/-- Whenever `ListFromCIDR` returns a pool, the prefix length is between 1 and
31 and the pool is `blockPool`. -/
theorem ListFromCIDR_ok_inv (fuel : Nat) (cidr : String) (ip : IP) (ipNet : IPNet) (l : IPList)
    (hparse : ParseCIDR cidr = some (ip, ipNet))
    (hok : ListFromCIDR fuel cidr = some (.ok l)) :
    ∃ b, ipNet = ⟨IP.ofNat b, ipNet.Mask⟩ ∧ 1 ≤ ipNet.Mask ∧ ipNet.Mask ≤ 31 ∧
      b % 2 ^ (32 - ipNet.Mask) = 0 ∧ b + 2 ^ (32 - ipNet.Mask) ≤ 4294967296 ∧
      l = blockPool b ipNet.Mask := by
  obtain ⟨b, hnet, hmask, hle, hdvd, hb⟩ := ParseCIDR_block hparse
  obtain ⟨nip, n⟩ := ipNet
  simp only at hnet hmask hle hdvd hb ⊢
  simp only [IPNet.mk.injEq, and_true] at hnet
  subst hnet
  by_cases h0 : n = 0
  · subst h0
    rw [ListFromCIDR_prefix_zero cidr ip _ hparse rfl fuel] at hok
    exact Option.noConfusion hok
  by_cases h32 : n = 32
  · subst h32
    have h1 := ListFromCIDR_mono cidr fuel (fuel + 2) _ hok (by omega)
    rw [ListFromCIDR_prefix_32 (fuel + 2) cidr ip b hparse hmask hb (by omega)] at h1
    simp at h1
  · have h1 := ListFromCIDR_mono cidr fuel (fuel + 2 ^ (32 - n) + 1) _ hok (by omega)
    rw [ListFromCIDR_eq_blockPool _ cidr ip b n hparse hmask (by omega) (by omega) hb hdvd
      (by omega)] at h1
    simp only [Option.some.injEq, Res.ok.injEq] at h1
    exact ⟨b, rfl, by omega, by omega, hdvd, hb, h1.symm⟩

/-- For every prefix length from 1 to 31 `ListFromCIDR` returns a pool. -/
theorem ListFromCIDR_returns_pool (fuel : Nat) (cidr : String) (ip : IP) (ipNet : IPNet)
    (hparse : ParseCIDR cidr = some (ip, ipNet))
    (hp1 : 1 ≤ ipNet.Mask) (hp31 : ipNet.Mask ≤ 31) (hfuel : 2 ^ (32 - ipNet.Mask) < fuel) :
    ∃ l, ListFromCIDR fuel cidr = some (.ok l) := by
  obtain ⟨b, hnet, hmask, _, hdvd, hb⟩ := ParseCIDR_block hparse
  rw [hnet] at hparse
  exact ⟨_, ListFromCIDR_eq_blockPool fuel cidr ip b _ hparse hmask hp1 hp31 hb hdvd hfuel⟩

/-! ## Prefix lengths 0 and 32, and duplicates -/

/-- Claim C12 (fails on the code): `0.0.0.0/0` and `10.0.0.1/32` both parse as
IPv4 networks; for `0.0.0.0/0` the enumeration loop never ends, whatever the
fuel, and for `10.0.0.1/32` the call panics on the missing back element. -/
theorem ListFromCIDR_prefix_0_and_32 :
    ParseCIDR "0.0.0.0/0" = some (ipv4 0 0 0 0, ⟨ipv4 0 0 0 0, 0⟩) ∧
    (∀ fuel, ListFromCIDR fuel "0.0.0.0/0" = none) ∧
    ParseCIDR "10.0.0.1/32" = some (ipv4 10 0 0 1, ⟨ipv4 10 0 0 1, 32⟩) ∧
    ListFromCIDR 10 "10.0.0.1/32" = some (.panic "nil pointer dereference") :=
  ⟨by decide, ListFromCIDR_prefix_zero "0.0.0.0/0" _ _ (by decide : ParseCIDR "0.0.0.0/0" =
    some (ipv4 0 0 0 0, ⟨ipv4 0 0 0 0, 0⟩)) rfl, by decide, by decide⟩

/-- Claim C19 (fails on the code): in the pool of `10.0.0.0/29`, adding
`10.0.0.1`, which the pool already contains, links a second element for it:
the sequence holds `10.0.0.1` twice and `Len` is 7 for 6 contained addresses;
a `Remove` of `10.0.0.1` then unlinks only the newer element, so that `First`
returns `10.0.0.1` although `Contains` is false for it. -/
theorem Add_of_contained_duplicates :
    samplePool.Contains (ipv4 10 0 0 1) = true ∧
    (samplePool.Add (ipv4 10 0 0 1)).2 = .ok () ∧
    (samplePool.Add (ipv4 10 0 0 1)).1.values =
      [ipv4 10 0 0 1, ipv4 10 0 0 1, ipv4 10 0 0 2, ipv4 10 0 0 3, ipv4 10 0 0 4,
        ipv4 10 0 0 5, ipv4 10 0 0 6] ∧
    (samplePool.Add (ipv4 10 0 0 1)).1.Len = 7 ∧
    ((samplePool.Add (ipv4 10 0 0 1)).1.Remove (ipv4 10 0 0 1)).Contains (ipv4 10 0 0 1)
      = false ∧
    ((samplePool.Add (ipv4 10 0 0 1)).1.Remove (ipv4 10 0 0 1)).First
      = .ok (ipv4 10 0 0 1) := by
  decide

/-! ## Pools reached from `ListFromCIDR` -/

theorem mapGet_mapDelete_some {β : Type} (m : List (String × β)) (k s : String) (v : β)
    (h : mapGet (mapDelete m k) s = some v) : s ≠ k ∧ mapGet m s = some v := by
  by_cases hs : s = k
  · subst hs
    rw [mapGet_mapDelete_self] at h
    exact Option.noConfusion h
  · rw [mapGet_mapDelete_of_ne _ _ _ hs] at h
    exact ⟨hs, h⟩

theorem mapGet_blockIndex_some (b : Nat) (s : String) (e : Nat) :
    ∀ k, mapGet (blockIndex b k) s = some e → e < k ∧ s = (IP.ofNat (b + e)).String := by
  intro k
  induction k with
  | zero => intro h; exact Option.noConfusion h
  | succ k ih =>
    intro h
    simp only [blockIndex, mapGet] at h
    by_cases hs : (IP.ofNat (b + k)).String = s
    · simp only [hs, if_true, Option.some.injEq] at h
      subst h
      exact ⟨by omega, hs.symm⟩
    · simp only [hs, if_false] at h
      obtain ⟨h1, h2⟩ := ih h
      exact ⟨by omega, h2⟩

theorem mapGet_blockPool_some (b n : Nat) (s : String) (e : Nat)
    (h : mapGet (blockPool b n).ipIndex s = some e) :
    1 ≤ e ∧ e + 1 < 2 ^ (32 - n) ∧ s = (IP.ofNat (b + e)).String := by
  simp only [blockPool] at h
  obtain ⟨h1, h2⟩ := mapGet_mapDelete_some _ _ _ _ h
  obtain ⟨h3, h4⟩ := mapGet_mapDelete_some _ _ _ _ h2
  obtain ⟨h5, h6⟩ := mapGet_blockIndex_some b s e _ h4
  refine ⟨?_, ?_, h6⟩
  · rcases Nat.eq_zero_or_pos e with h0 | h0
    · subst h0
      exact absurd h6 h3
    · exact h0
  · by_contra hc
    have : e = 2 ^ (32 - n) - 1 := by omega
    subst this
    exact h1 h6

theorem mapGet_blockPool (b n y : Nat) (hb : b + 2 ^ (32 - n) ≤ 4294967296)
    (h1 : b < y) (h2 : y < b + (2 ^ (32 - n) - 1)) :
    mapGet (blockPool b n).ipIndex (IP.ofNat y).String = some (y - b) := by
  simp only [blockPool]
  rw [mapGet_mapDelete_of_ne _ _ _ (String_ne_of_ne (by omega) (by omega) (by omega)),
    mapGet_mapDelete_of_ne _ _ _ (String_ne_of_ne (by omega) (by omega) (by omega)),
    mapGet_blockIndex b y (by omega) _ hb]
  have : b ≤ y ∧ y < b + 2 ^ (32 - n) := by omega
  simp [this]

theorem mem_blockElems (b s k : Nat) (x : Element) (h : x ∈ blockElems b s k) :
    s ≤ x.id ∧ x.id < s + k ∧ x.Value = IP.ofNat (b + x.id) := by
  simp only [blockElems, List.mem_map, List.mem_range'_1] at h
  obtain ⟨i, hi, rfl⟩ := h
  exact ⟨hi.1, hi.2, rfl⟩

theorem Linked_blockPool (b n : Nat) : (blockPool b n).Linked := by
  refine ⟨?_, ?_⟩
  · intro x hx
    obtain ⟨h1, h2, _⟩ := mem_blockElems _ _ _ _ hx
    simp only [blockPool]
    omega
  · intro s e hs
    obtain ⟨h1, h2, h3⟩ := mapGet_blockPool_some b n s e hs
    refine ⟨by simp only [blockPool]; omega, ?_⟩
    intro x hx hid
    obtain ⟨_, _, hv⟩ := mem_blockElems _ _ _ _ hx
    rw [hv, hid, h3]

theorem Linked_Remove (l : IPList) (ip : IP) (hl : l.Linked) : (l.Remove ip).Linked := by
  cases hg : mapGet l.ipIndex ip.String with
  | none => rw [Remove_of_none l ip hg]; exact hl
  | some e =>
    rw [Remove_of_some l ip e hg]
    refine ⟨?_, ?_⟩
    · intro x hx
      exact hl.idLt x (List.mem_filter.mp hx).1
    · intro s i hs
      obtain ⟨_, h2⟩ := mapGet_mapDelete_some _ _ _ _ hs
      obtain ⟨h3, h4⟩ := hl.indexed s i h2
      exact ⟨h3, fun x hx hid => h4 x (List.mem_filter.mp hx).1 hid⟩

theorem mem_listInsertBefore (new x : Element) (mark : Nat) (xs : List Element)
    (h : x ∈ listInsertBefore new mark xs) : x = new ∨ x ∈ xs := by
  induction xs with
  | nil => simp [listInsertBefore] at h
  | cons y ys ih =>
    simp only [listInsertBefore] at h
    by_cases hm : y.id = mark
    · simp only [hm, if_true, List.mem_cons] at h
      rcases h with h | h | h
      · exact Or.inl h
      · exact Or.inr (h ▸ List.mem_cons_self _ _)
      · exact Or.inr (List.mem_cons_of_mem _ h)
    · simp only [hm, if_false, List.mem_cons] at h
      rcases h with h | h
      · exact Or.inr (h ▸ List.mem_cons_self _ _)
      · rcases ih h with h2 | h2
        · exact Or.inl h2
        · exact Or.inr (List.mem_cons_of_mem _ h2)

theorem Linked_insert (l : IPList) (ip : IP) (m : Nat) (hl : l.Linked) :
    (l.insert ip m).Linked := by
  refine ⟨?_, ?_⟩
  · intro x hx
    simp only [IPList.insert] at hx ⊢
    rcases mem_listInsertBefore _ _ _ _ hx with h | h
    · subst h; exact Nat.lt_succ_self _
    · exact Nat.lt_succ_of_lt (hl.idLt x h)
  · intro s e hs
    simp only [IPList.insert] at hs ⊢
    by_cases hk : s = ip.String
    · subst hk
      rw [mapGet_mapSet_self] at hs
      simp only [Option.some.injEq] at hs
      subst hs
      refine ⟨Nat.lt_succ_self _, ?_⟩
      intro x hx hid
      rcases mem_listInsertBefore _ _ _ _ hx with h | h
      · subst h; rfl
      · exact absurd hid (Nat.ne_of_lt (hl.idLt x h))
    · rw [mapGet_mapSet_of_ne _ _ _ _ hk] at hs
      obtain ⟨h3, h4⟩ := hl.indexed s e hs
      refine ⟨Nat.lt_succ_of_lt h3, ?_⟩
      intro x hx hid
      rcases mem_listInsertBefore _ _ _ _ hx with h | h
      · subst h
        simp only at hid
        omega
      · exact h4 x h hid

theorem Linked_Add (l : IPList) (ip : IP) (hl : l.Linked) : (l.Add ip).1.Linked := by
  rcases Add_cases l ip with ⟨msg, ha⟩ | ⟨msg, ha⟩ | ⟨m, ha, _⟩
  · rw [ha]; exact hl
  · rw [ha]; exact hl
  · rw [ha]; exact Linked_insert l ip m hl

theorem Linked_runOps (ops : List PoolOp) :
    ∀ l : IPList, l.Linked → (l.runOps ops).Linked := by
  induction ops with
  | nil => intro l hl; exact hl
  | cons op ops ih =>
    intro l hl
    apply ih
    cases op with
    | Remove ip => exact Linked_Remove l ip hl
    | Add ip => exact Linked_Add l ip hl

theorem ListFromCIDR_ok_parse (fuel : Nat) (cidr : String) (l : IPList)
    (hok : ListFromCIDR fuel cidr = some (.ok l)) :
    ∃ ip ipNet, ParseCIDR cidr = some (ip, ipNet) := by
  cases hp : ParseCIDR cidr with
  | none => simp [ListFromCIDR, hp] at hok
  | some pr => exact ⟨pr.1, pr.2, rfl⟩

theorem Linked_of_ListFromCIDR (fuel : Nat) (cidr : String) (l : IPList)
    (hok : ListFromCIDR fuel cidr = some (.ok l)) : l.Linked := by
  obtain ⟨ip, ipNet, hparse⟩ := ListFromCIDR_ok_parse fuel cidr l hok
  obtain ⟨b, _, _, _, _, _, hl⟩ := ListFromCIDR_ok_inv fuel cidr ip ipNet l hparse hok
  rw [hl]
  exact Linked_blockPool b _

theorem values_listRemove (xs : List Element) (e : Nat) (ip : IP)
    (h : ∀ x ∈ xs, x.id = e → x.Value = ip) :
    ((listRemove xs e).map (fun x => x.Value)).filter (fun v => decide (v ≠ ip)) =
      (xs.map (fun x => x.Value)).filter (fun v => decide (v ≠ ip)) := by
  induction xs with
  | nil => rfl
  | cons y ys ih =>
    have hys : ∀ x ∈ ys, x.id = e → x.Value = ip :=
      fun x hx => h x (List.mem_cons_of_mem _ hx)
    have ih2 := ih hys
    simp only [listRemove] at ih2 ⊢
    by_cases hy : y.id = e
    · have hv : y.Value = ip := h y (List.mem_cons_self _ _) hy
      simpa [List.filter_cons, hy, hv] using ih2
    · simp only [List.filter_cons, ne_eq, hy, not_false_eq_true, decide_True, if_true,
        List.map_cons]
      by_cases hv : y.Value = ip
      · simp only [hv, not_true_eq_false, decide_False, Bool.false_eq_true, if_false]
        exact ih2
      · simp only [hv, not_false_eq_true, decide_True, if_true]
        rw [ih2]

/-- Claim C11: for every pool reached from `ListFromCIDR` by `Remove` and
`Add` calls and every address `ip`: after `Remove ip` the pool does not
contain `ip`, every other address is contained exactly if it was before, and
the sequence of the other addresses in iteration order is the same; when `ip`
was not contained the pool is exactly as before; and removing `ip` a second
time changes nothing. -/
theorem Remove_spec (fuel : Nat) (cidr : String) (l0 : IPList) (ops : List PoolOp) (ip : IP)
    (h0 : ListFromCIDR fuel cidr = some (.ok l0)) :
    ((l0.runOps ops).Remove ip).Contains ip = false ∧
    (∀ ip2, ip2 ≠ ip →
      ((l0.runOps ops).Remove ip).Contains ip2 = (l0.runOps ops).Contains ip2) ∧
    ((l0.runOps ops).Remove ip).values.filter (fun v => decide (v ≠ ip)) =
      (l0.runOps ops).values.filter (fun v => decide (v ≠ ip)) ∧
    ((l0.runOps ops).Contains ip = false → (l0.runOps ops).Remove ip = l0.runOps ops) ∧
    ((l0.runOps ops).Remove ip).Remove ip = (l0.runOps ops).Remove ip := by
  have hl := Linked_runOps ops l0 (Linked_of_ListFromCIDR fuel cidr l0 h0)
  generalize l0.runOps ops = l at hl ⊢
  have hnone : ∀ l2 : IPList, l2.Contains ip = false → l2.Remove ip = l2 := by
    intro l2 h2
    apply Remove_of_none
    simp only [IPList.Contains] at h2
    cases hg : mapGet l2.ipIndex ip.String with
    | none => rfl
    | some e => simp [hg] at h2
  refine ⟨Contains_Remove_self l ip, fun ip2 h2 => Contains_Remove_of_ne l ip ip2 h2, ?_,
    hnone l, hnone _ (Contains_Remove_self l ip)⟩
  cases hg : mapGet l.ipIndex ip.String with
  | none => rw [Remove_of_none l ip hg]
  | some e =>
    rw [Remove_of_some l ip e hg]
    simp only [IPList.values]
    apply values_listRemove
    intro x hx hid
    exact String_injective ((hl.indexed _ e hg).2 x hx hid)

/-! ## Discover -/

theorem First_of_Len_ne_zero (l : IPList) (hlen : l.Len ≠ 0) :
    ∃ e, l.internalList.head? = some e ∧ l.First = .ok e.Value := by
  unfold IPList.Len at hlen
  cases hl : l.internalList with
  | nil => simp [hl] at hlen
  | cons e es => exact ⟨e, rfl, by simp [IPList.First, hl]⟩

/-- Claim C14: a DISCOVER leaves the handler (pool, store, `ipToNic`) as it
is; the reply is nil when the pool has length zero and otherwise an OFFER of
the address `First` returns; a second DISCOVER served right after gets the
same reply. -/
theorem ServeDHCP_Discover (h : Handler) (p : Packet) (options : Options) :
    (h.ServeDHCP p .Discover options).1 = h ∧
    (h.freeIPs.Len = 0 → (h.ServeDHCP p .Discover options).2 = .ok none) ∧
    (h.freeIPs.Len ≠ 0 → ∃ ip, h.freeIPs.First = .ok ip ∧
      (h.ServeDHCP p .Discover options).2 = .ok (some ⟨.Offer, h.ip, ip, handleTimeout⟩)) ∧
    (∀ (p2 : Packet) (options2 : Options),
      ((h.ServeDHCP p .Discover options).1.ServeDHCP p2 .Discover options2).2 =
        (h.ServeDHCP p .Discover options).2) := by
  by_cases hlen : h.freeIPs.Len = 0
  · have hrun : ∀ (q : Packet) (o : Options), h.ServeDHCP q .Discover o = (h, .ok none) := by
      intro q o
      simp [Handler.ServeDHCP, Handler.getNextFreeIP, hlen]
    refine ⟨by rw [hrun], fun _ => by rw [hrun], fun h2 => absurd hlen h2, ?_⟩
    intro p2 o2
    rw [hrun p options, hrun p2 o2]
  · obtain ⟨e, _, hfirst⟩ := First_of_Len_ne_zero h.freeIPs hlen
    have hrun : ∀ (q : Packet) (o : Options), h.ServeDHCP q .Discover o =
        (h, .ok (some ⟨.Offer, h.ip, e.Value, handleTimeout⟩)) := by
      intro q o
      simp [Handler.ServeDHCP, Handler.getNextFreeIP, hlen, hfirst]
    refine ⟨by rw [hrun], fun h2 => absurd h2 hlen, fun _ => ⟨e.Value, hfirst, by rw [hrun]⟩, ?_⟩
    intro p2 o2
    rw [hrun p options, hrun p2 o2]

theorem ServeDHCP_Discover_witness :
    sampleHandler.freeIPs.Len ≠ 0 ∧
    sampleHandler.ServeDHCP ⟨testMAC, ipv4 0 0 0 0⟩ .Discover ⟨none, .nil⟩ =
      (sampleHandler, .ok (some ⟨.Offer, ipv4 10 0 0 1, ipv4 10 0 0 2, handleTimeout⟩)) ∧
    (∀ (p2 : Packet) (options2 : Options),
      ((sampleHandler.ServeDHCP ⟨testMAC, ipv4 0 0 0 0⟩ .Discover ⟨none, .nil⟩).1.ServeDHCP p2
        .Discover options2).2 =
        (sampleHandler.ServeDHCP ⟨testMAC, ipv4 0 0 0 0⟩ .Discover ⟨none, .nil⟩).2) :=
  ⟨by decide, by decide,
    (ServeDHCP_Discover sampleHandler ⟨testMAC, ipv4 0 0 0 0⟩ ⟨none, .nil⟩).2.2.2⟩

/-! ## Requests for another server -/

/-- Claim C15: a REQUEST whose server-identifier option is present and differs
from the own address of the server gets no reply and leaves the handler
(store, pool, `ipToNic`) as it is. -/
theorem ServeDHCP_Request_other_server (h : Handler) (p : Packet) (server reqIP : IP)
    (hother : server ≠ h.ip) :
    h.ServeDHCP p .Request ⟨some server, reqIP⟩ = (h, .ok none) := by
  simp [Handler.ServeDHCP, hother]

theorem ServeDHCP_Request_other_server_witness :
    ipv4 10 0 0 6 ≠ sampleHandler.ip ∧
    sampleHandler.ServeDHCP ⟨testMAC, ipv4 0 0 0 0⟩ .Request ⟨some (ipv4 10 0 0 6), ipv4 10 0 0 2⟩
      = (sampleHandler, .ok none) :=
  ⟨by decide,
    ServeDHCP_Request_other_server sampleHandler ⟨testMAC, ipv4 0 0 0 0⟩ (ipv4 10 0 0 6)
      (ipv4 10 0 0 2) (by decide)⟩

/-! ## Retry of an allocation -/

/-- Claim C17: when the store already holds `ip.String` under the lease key of
the client and the pool still contains `ip`, `allocateIP` returns no error,
leaves the store as it is, takes `ip` out of the pool (every other address is
contained exactly if it was before) and sets `ipToNic[ip.String]` to the
client. -/
theorem allocateIP_retry (h : Handler) (nic : String) (ip : IP)
    (hpool : h.freeIPs.Contains ip = true)
    (hget : h.kv.Get (getLeaseKey nic) = some ip.String) :
    (h.allocateIP nic ip).2 = .ok () ∧
    (h.allocateIP nic ip).1.kv = h.kv ∧
    (h.allocateIP nic ip).1.freeIPs = h.freeIPs.Remove ip ∧
    (h.allocateIP nic ip).1.freeIPs.Contains ip = false ∧
    (∀ ip2, ip2 ≠ ip →
      (h.allocateIP nic ip).1.freeIPs.Contains ip2 = h.freeIPs.Contains ip2) ∧
    mapGet (h.allocateIP nic ip).1.ipToNic ip.String = some nic := by
  rw [allocateIP_eq_of_same h nic ip hpool hget]
  exact ⟨rfl, rfl, rfl, Contains_Remove_self _ _,
    fun ip2 h2 => Contains_Remove_of_ne _ _ _ h2, mapGet_mapSet_self _ _ _⟩

/-! ## Release of an address outside the network -/

/-- Claim C18: when the store holds, under the lease key of the client, the
text of an address that the network of the pool does not contain, `releaseIP`
returns an error, the lease is deleted from the store all the same, and the
pool and `ipToNic` are as before. -/
theorem releaseIP_out_of_range (h : Handler) (nic : String) (ip : IP)
    (hget : h.kv.Get (getLeaseKey nic) = some ip.String)
    (hout : h.freeIPs.ipNet.Contains ip = false) :
    (h.releaseIP nic).2.isErr = true ∧
    (h.releaseIP nic).1.kv.Get (getLeaseKey nic) = none ∧
    (h.releaseIP nic).1.kv = h.kv.Delete (getLeaseKey nic) ∧
    (h.releaseIP nic).1.freeIPs = h.freeIPs ∧
    (h.releaseIP nic).1.ipToNic = h.ipToNic := by
  have hadd : h.freeIPs.Add (ParseIP ip.String) =
      (h.freeIPs, .err "ip does not exist in list cidr") := by
    rw [ParseIP_String]
    exact Add_of_not_in_network _ _ hout
  rw [releaseIP_eq_of_Add_err h nic ip.String _ _ hget hadd]
  exact ⟨rfl, mapGet_mapDelete_self _ _, rfl, rfl, rfl⟩

theorem allocateIP_retry_witness :
    retryHandler.freeIPs.Contains (ipv4 10 0 0 2) = true ∧
    retryHandler.kv.Get (getLeaseKey testMAC) = some (ipv4 10 0 0 2).String ∧
    (retryHandler.allocateIP testMAC (ipv4 10 0 0 2)).2 = .ok () ∧
    (retryHandler.allocateIP testMAC (ipv4 10 0 0 2)).1.kv = retryHandler.kv ∧
    (retryHandler.allocateIP testMAC (ipv4 10 0 0 2)).1.freeIPs =
      retryHandler.freeIPs.Remove (ipv4 10 0 0 2) ∧
    (retryHandler.allocateIP testMAC (ipv4 10 0 0 2)).1.freeIPs.Contains (ipv4 10 0 0 2)
      = false ∧
    (∀ ip2, ip2 ≠ ipv4 10 0 0 2 →
      (retryHandler.allocateIP testMAC (ipv4 10 0 0 2)).1.freeIPs.Contains ip2 =
        retryHandler.freeIPs.Contains ip2) ∧
    mapGet (retryHandler.allocateIP testMAC (ipv4 10 0 0 2)).1.ipToNic
      (ipv4 10 0 0 2).String = some testMAC :=
  ⟨by decide, by decide,
    allocateIP_retry retryHandler testMAC (ipv4 10 0 0 2) (by decide) (by decide)⟩

theorem releaseIP_out_of_range_witness :
    strayHandler.freeIPs.Len ≠ 0 ∧
    strayHandler.kv.Get (getLeaseKey testMAC) = some (ipv4 192 168 0 7).String ∧
    strayHandler.freeIPs.ipNet.Contains (ipv4 192 168 0 7) = false ∧
    (strayHandler.releaseIP testMAC).2.isErr = true ∧
    (strayHandler.releaseIP testMAC).1.kv.Get (getLeaseKey testMAC) = none ∧
    (strayHandler.releaseIP testMAC).1.kv = strayHandler.kv.Delete (getLeaseKey testMAC) ∧
    (strayHandler.releaseIP testMAC).1.freeIPs = strayHandler.freeIPs ∧
    (strayHandler.releaseIP testMAC).1.ipToNic = strayHandler.ipToNic :=
  ⟨by decide, by decide, by decide,
    releaseIP_out_of_range strayHandler testMAC (ipv4 192 168 0 7) (by decide) (by decide)⟩

/-! ## Invariants of a single handler -/

theorem addScan_not_err (ip : IP) (xs : List Element) (msg : String) :
    addScan ip xs ≠ .err msg := by
  induction xs with
  | nil => simp [addScan]
  | cons e es ih =>
    simp only [addScan]
    cases IPLess ip e.Value with
    | none => simp
    | some less =>
      cases less with
      | true => simpa using ih
      | false => simp

theorem Add_not_err_of_Contains (l l1 : IPList) (ip : IP) (msg : String)
    (hnet : l.ipNet.Contains ip = true) : l.Add ip ≠ (l1, .err msg) := by
  intro h
  simp only [IPList.Add, copyIP, hnet, Bool.not_true, Bool.false_eq_true, if_false] at h
  cases hs : addScan ip l.internalList with
  | err m => exact addScan_not_err ip _ m hs
  | panic m => simp [hs] at h
  | ok o =>
    cases o with
    | some e => simp [hs] at h
    | none =>
      cases hl : l.internalList.getLast? with
      | none => simp [hs, hl] at h
      | some back => simp [hs, hl] at h

theorem insert_ipNet (l : IPList) (ip : IP) (m : Nat) : (l.insert ip m).ipNet = l.ipNet := rfl

theorem Sound_allocateIP (ipNet : IPNet) (ownIP : IP) (h : Handler) (nic : String) (ip : IP)
    (hs : Sound ipNet ownIP h) : Sound ipNet ownIP (h.allocateIP nic ip).1 := by
  have hcons := Consistent_allocateIP h nic ip hs.consistent
  have hsub : ∀ s e, mapGet (h.freeIPs.Remove ip).ipIndex s = some e →
      mapGet h.freeIPs.ipIndex s = some e := by
    intro s e hse
    cases hg : mapGet h.freeIPs.ipIndex ip.String with
    | none => rwa [Remove_of_none _ _ hg] at hse
    | some i =>
      rw [Remove_of_some _ _ i hg] at hse
      exact (mapGet_mapDelete_some _ _ _ _ hse).2
  cases hpool : h.freeIPs.Contains ip with
  | false =>
    rw [allocateIP_eq_of_not_free h nic ip hpool]; exact hs
  | true =>
    have hidx : ∃ e, mapGet h.freeIPs.ipIndex ip.String = some e := by
      simp only [IPList.Contains] at hpool
      exact Option.isSome_iff_exists.mp hpool
    obtain ⟨e, he⟩ := hidx
    cases hget : h.kv.Get (getLeaseKey nic) with
    | some v =>
      by_cases hv : v = ip.String
      · subst hv
        rw [allocateIP_eq_of_same h nic ip hpool hget] at hcons ⊢
        refine ⟨?_, hcons, ?_, hs.store⟩
        · simp only [Remove_ipNet]; exact hs.net
        · intro s i hsi
          exact hs.pool s i (hsub s i hsi)
      · rw [allocateIP_eq_of_other h nic ip v hpool hget hv]; exact hs
    | none =>
      rw [allocateIP_eq_of_free h nic ip hpool hget] at hcons ⊢
      refine ⟨?_, hcons, ?_, ?_⟩
      · simp only [Remove_ipNet]; exact hs.net
      · intro s i hsi
        exact hs.pool s i (hsub s i hsi)
      · intro k v hk
        simp only at hk
        by_cases hkk : k = getLeaseKey nic
        · subst hkk
          rw [mapGet_mapSet_self] at hk
          simp only [Option.some.injEq] at hk
          subst hk
          exact hs.pool _ e he
        · rw [mapGet_mapSet_of_ne _ _ _ _ hkk] at hk
          exact hs.store k v hk

theorem Sound_releaseIP (ipNet : IPNet) (ownIP : IP) (h : Handler) (nic : String)
    (hs : Sound ipNet ownIP h) : Sound ipNet ownIP (h.releaseIP nic).1 := by
  have hcons := Consistent_releaseIP h nic hs.consistent
  cases hget : h.kv.Get (getLeaseKey nic) with
  | none => rw [releaseIP_of_no_lease h nic hget]; exact hs
  | some v =>
    have hstore : ∀ k w, mapGet (mapDelete h.kv (getLeaseKey nic)) k = some w →
        ∃ x, w = x.String ∧ Host ipNet ownIP x := by
      intro k w hk
      exact hs.store k w (mapGet_mapDelete_some _ _ _ _ hk).2
    obtain ⟨x, hx, hhost⟩ := hs.store _ v hget
    rcases Add_cases h.freeIPs (ParseIP v) with ⟨msg, ha⟩ | ⟨msg, ha⟩ | ⟨m, ha, _⟩
    · rw [releaseIP_eq_of_Add_err h nic v msg _ hget ha] at hcons ⊢
      exact ⟨hs.net, hcons, hs.pool, hstore⟩
    · rw [releaseIP_eq_of_Add_panic h nic v msg _ hget ha] at hcons ⊢
      exact ⟨hs.net, hcons, hs.pool, hstore⟩
    · rw [releaseIP_eq_of_Add_ok h nic v _ hget ha] at hcons ⊢
      refine ⟨hs.net, hcons, ?_, hstore⟩
      intro s e hse
      simp only [IPList.insert] at hse
      by_cases hk : s = (ParseIP v).String
      · refine ⟨x, ?_, hhost⟩
        rw [hk, hx, ParseIP_String]
      · rw [mapGet_mapSet_of_ne _ _ _ _ hk] at hse
        exact hs.pool s e hse

theorem Sound_delete (ipNet : IPNet) (ownIP : IP) (h : Handler) (key : String)
    (hs : Sound ipNet ownIP h) : Sound ipNet ownIP { h with kv := h.kv.Delete key } :=
  ⟨hs.net, Consistent_delete h key hs.consistent, hs.pool,
    fun k v hk => hs.store k v (mapGet_mapDelete_some _ _ _ _ hk).2⟩

theorem Sound_call (ipNet : IPNet) (ownIP : IP) (h : Handler) (c : Call)
    (hset : c.allocSettled = true) (hs : Sound ipNet ownIP h) :
    Sound ipNet ownIP (h.call c).1 := by
  rcases call_cases h c with h1 | ⟨nic, ip, h1⟩ | ⟨nic, h1⟩ | ⟨h1, _⟩ | ⟨_, nic, h1⟩
  · rw [h1]; exact hs
  · rw [h1]; exact Sound_allocateIP ipNet ownIP h nic ip hs
  · rw [h1]; exact Sound_releaseIP ipNet ownIP h nic hs
  · rw [hset] at h1; exact absurd h1 (by decide)
  · rw [h1]; exact Sound_delete ipNet ownIP h _ hs

theorem Mirror_allocateIP (ipNet : IPNet) (ownIP : IP) (h : Handler) (nic : String) (ip : IP)
    (hs : Sound ipNet ownIP h) (hm : Mirror h) : Mirror (h.allocateIP nic ip).1 := by
  cases hpool : h.freeIPs.Contains ip with
  | false =>
    rw [allocateIP_eq_of_not_free h nic ip hpool]; exact hm
  | true =>
    have hidx : ∃ e, mapGet h.freeIPs.ipIndex ip.String = some e := by
      simp only [IPList.Contains] at hpool
      exact Option.isSome_iff_exists.mp hpool
    obtain ⟨e, he⟩ := hidx
    have hfresh : ∀ k, mapGet h.kv k ≠ some ip.String := hs.consistent.unleased _ _ he
    cases hget : h.kv.Get (getLeaseKey nic) with
    | some v =>
      by_cases hv : v = ip.String
      · exact absurd (hv ▸ hget) (hfresh _)
      · rw [allocateIP_eq_of_other h nic ip v hpool hget hv]; exact hm
    | none =>
      rw [allocateIP_eq_of_free h nic ip hpool hget]
      intro s n
      simp only [KV.Get]
      by_cases hss : s = ip.String
      · subst hss
        rw [mapGet_mapSet_self]
        by_cases hn : n = nic
        · subst hn
          rw [mapGet_mapSet_self]
          exact ⟨fun _ => rfl, fun _ => rfl⟩
        · have hk : getLeaseKey n ≠ getLeaseKey nic := fun hk => hn (getLeaseKey_injective hk)
          rw [mapGet_mapSet_of_ne _ _ _ _ hk]
          constructor
          · intro h1
            exact absurd (Option.some.inj h1).symm hn
          · intro h1
            exact absurd h1 (hfresh _)
      · rw [mapGet_mapSet_of_ne _ _ _ _ hss]
        by_cases hn : n = nic
        · subst hn
          rw [mapGet_mapSet_self]
          constructor
          · intro h1
            have := (hm s n).mp h1
            rw [hget] at this
            exact Option.noConfusion this
          · intro h1
            exact absurd (Option.some.inj h1).symm hss
        · have hk : getLeaseKey n ≠ getLeaseKey nic := fun hk => hn (getLeaseKey_injective hk)
          rw [mapGet_mapSet_of_ne _ _ _ _ hk]
          exact hm s n

theorem Mirror_releaseIP (ipNet : IPNet) (ownIP : IP) (h : Handler) (nic : String)
    (hs : Sound ipNet ownIP h) (hm : Mirror h)
    (hret : (h.releaseIP nic).2.isPanic = false) : Mirror (h.releaseIP nic).1 := by
  cases hget : h.kv.Get (getLeaseKey nic) with
  | none =>
    rw [releaseIP_of_no_lease h nic hget] at hret
    simp [Res.isPanic] at hret
  | some v =>
    obtain ⟨x, hx, hhost⟩ := hs.store _ v hget
    have hpx : ParseIP v = x := by rw [hx, ParseIP_String]
    rcases Add_cases h.freeIPs (ParseIP v) with ⟨msg, ha⟩ | ⟨msg, ha⟩ | ⟨m, ha, _⟩
    · exfalso
      refine Add_not_err_of_Contains h.freeIPs _ _ msg ?_ ha
      rw [hpx, hs.net]
      exact hhost.1
    · rw [releaseIP_eq_of_Add_panic h nic v msg _ hget ha] at hret
      simp [Res.isPanic] at hret
    · rw [releaseIP_eq_of_Add_ok h nic v _ hget ha]
      intro s n
      simp only [KV.Get, KV.Delete, hpx, ← hx]
      by_cases hss : s = v
      · subst hss
        rw [mapGet_mapDelete_self]
        constructor
        · intro h1; exact Option.noConfusion h1
        · intro h1
          obtain ⟨hne, h2⟩ := mapGet_mapDelete_some _ _ _ _ h1
          exact absurd (hs.consistent.distinct _ _ _ h2 hget) hne
      · rw [mapGet_mapDelete_of_ne _ _ _ hss]
        by_cases hn : n = nic
        · subst hn
          rw [mapGet_mapDelete_self]
          constructor
          · intro h1
            have := (hm s n).mp h1
            rw [hget] at this
            exact absurd (Option.some.inj this).symm hss
          · intro h1; exact Option.noConfusion h1
        · have hk : getLeaseKey n ≠ getLeaseKey nic := fun hk => hn (getLeaseKey_injective hk)
          rw [mapGet_mapDelete_of_ne _ _ _ hk]
          exact hm s n

theorem Mirror_call (ipNet : IPNet) (ownIP : IP) (h : Handler) (c : Call)
    (hset : c.settled = true) (hs : Sound ipNet ownIP h) (hm : Mirror h)
    (hret : (h.call c).2.isPanic = false) : Mirror (h.call c).1 := by
  rcases call_cases h c with h1 | ⟨nic, ip, h1⟩ | ⟨nic, h1⟩ | ⟨h1, _⟩ | ⟨h1, _⟩
  · rw [h1]; exact hm
  · rw [h1]; exact Mirror_allocateIP ipNet ownIP h nic ip hs hm
  · rw [h1] at hret ⊢; exact Mirror_releaseIP ipNet ownIP h nic hs hm hret
  · rw [allocSettled_of_settled c hset] at h1; exact absurd h1 (by decide)
  · rw [hset] at h1; exact absurd h1 (by decide)

/-- Along calls that all return, none of them returning a store error after
its transaction was committed, the handler stays `Sound`. -/
theorem Sound_runReturned (ipNet : IPNet) (ownIP : IP) (calls : List Call) :
    ∀ h h1 : Handler, (∀ c ∈ calls, c.allocSettled = true) → Sound ipNet ownIP h →
      h.runReturned calls = some h1 → Sound ipNet ownIP h1 := by
  induction calls with
  | nil =>
    intro h h1 _ hs hr
    simp only [Handler.runReturned, Option.some.injEq] at hr
    subst hr
    exact hs
  | cons c cs ih =>
    intro h h1 hset hs hr
    have hs2 := Sound_call ipNet ownIP h c (hset c (List.mem_cons_self c cs)) hs
    have hrest : ∀ d ∈ cs, d.allocSettled = true :=
      fun d hd => hset d (List.mem_cons_of_mem c hd)
    simp only [Handler.runReturned] at hr
    rcases hc : h.call c with ⟨h2, r⟩
    rw [hc] at hr hs2
    cases r with
    | panic msg => simp at hr
    | ok v => exact ih h2 h1 hrest hs2 hr
    | err msg => exact ih h2 h1 hrest hs2 hr

/-- Along calls that all return, none of them returning a store error after a
write of it was applied, the handler stays `Sound` and `ipToNic` keeps
mirroring the store. -/
theorem Sound_Mirror_runReturned (ipNet : IPNet) (ownIP : IP) (calls : List Call) :
    ∀ h h1 : Handler, (∀ c ∈ calls, c.settled = true) → Sound ipNet ownIP h → Mirror h →
      h.runReturned calls = some h1 → Sound ipNet ownIP h1 ∧ Mirror h1 := by
  induction calls with
  | nil =>
    intro h h1 _ hs hm hr
    simp only [Handler.runReturned, Option.some.injEq] at hr
    subst hr
    exact ⟨hs, hm⟩
  | cons c cs ih =>
    intro h h1 hset hs hm hr
    have hc1 := hset c (List.mem_cons_self c cs)
    have hs2 := Sound_call ipNet ownIP h c (allocSettled_of_settled c hc1) hs
    have hm2 := Mirror_call ipNet ownIP h c hc1 hs hm
    have hrest : ∀ d ∈ cs, d.settled = true :=
      fun d hd => hset d (List.mem_cons_of_mem c hd)
    simp only [Handler.runReturned] at hr
    rcases hc : h.call c with ⟨h2, r⟩
    rw [hc] at hr hs2 hm2
    cases r with
    | panic msg => simp at hr
    | ok v => exact ih h2 h1 hrest hs2 (hm2 rfl) hr
    | err msg => exact ih h2 h1 hrest hs2 (hm2 rfl) hr

/-! ## What `New` builds -/

theorem New_of_ListFromCIDR (fuel : Nat) (kv : KV) (cidr : String) (ownIP : IP) (ld : Nat)
    (l0 : IPList) (h0 : ListFromCIDR fuel cidr = some (.ok l0)) :
    New fuel kv cidr ownIP ld = some (.ok
      { ip := ownIP
        kv := kv
        freeIPs := (reconcile (kv.GetAll etcdPrefixLease) [] l0).2.Remove ownIP
        ipToNic := (reconcile (kv.GetAll etcdPrefixLease) [] l0).1
        leaseDuration := ld }) := by
  simp only [New, h0]
  rfl

theorem New_ok_inv (fuel : Nat) (kv : KV) (cidr : String) (ownIP : IP) (ld : Nat) (h : Handler)
    (hnew : New fuel kv cidr ownIP ld = some (.ok h)) :
    ∃ l0, ListFromCIDR fuel cidr = some (.ok l0) ∧
      h = { ip := ownIP
            kv := kv
            freeIPs := (reconcile (kv.GetAll etcdPrefixLease) [] l0).2.Remove ownIP
            ipToNic := (reconcile (kv.GetAll etcdPrefixLease) [] l0).1
            leaseDuration := ld } := by
  cases hl : ListFromCIDR fuel cidr with
  | none => simp [New, hl] at hnew
  | some r =>
    cases r with
    | err msg => simp [New, hl] at hnew
    | panic msg => simp [New, hl] at hnew
    | ok l0 =>
      rw [New_of_ListFromCIDR fuel kv cidr ownIP ld l0 hl] at hnew
      simp only [Option.some.injEq, Res.ok.injEq] at hnew
      exact ⟨l0, rfl, hnew.symm⟩

theorem mapGet_Remove_some (l : IPList) (ip : IP) (s : String) (e : Nat)
    (h : mapGet (l.Remove ip).ipIndex s = some e) :
    s ≠ ip.String ∧ mapGet l.ipIndex s = some e := by
  cases hg : mapGet l.ipIndex ip.String with
  | none =>
    rw [Remove_of_none l ip hg] at h
    refine ⟨?_, h⟩
    intro hs
    rw [hs, hg] at h
    exact Option.noConfusion h
  | some i =>
    rw [Remove_of_some l ip i hg] at h
    exact mapGet_mapDelete_some _ _ _ _ h

theorem Host_of_blockPool (b n : Nat) (ownIP : IP) (s : String) (e : Nat)
    (hb : b + 2 ^ (32 - n) ≤ 4294967296) (hdvd : b % 2 ^ (32 - n) = 0)
    (h : mapGet ((blockPool b n).Remove ownIP).ipIndex s = some e) :
    ∃ x, s = x.String ∧ Host ⟨IP.ofNat b, n⟩ ownIP x := by
  obtain ⟨hown, h1⟩ := mapGet_Remove_some _ _ _ _ h
  obtain ⟨he1, he2, hs⟩ := mapGet_blockPool_some b n s e h1
  refine ⟨IP.ofNat (b + e), hs, ?_, ?_, ?_, ?_⟩
  · rw [Contains_ofNat b n _ (by omega) hb hdvd]
    simp only [decide_eq_true_eq]
    omega
  · exact (ofNat_ne_iff (by omega) (by omega)).mpr (by omega)
  · rw [last_ofNat b n hb]
    exact (ofNat_ne_iff (by omega) (by omega)).mpr (by omega)
  · intro hx
    exact hown (hs.trans (congrArg IP.String hx))

/-- The handler `New` builds over an empty store satisfies the invariants. -/
theorem Sound_Mirror_New (fuel : Nat) (cidr : String) (ip : IP) (ipNet : IPNet) (ownIP : IP)
    (ld : Nat) (h : Handler) (hparse : ParseCIDR cidr = some (ip, ipNet))
    (hnew : New fuel [] cidr ownIP ld = some (.ok h)) :
    Sound ipNet ownIP h ∧ Mirror h := by
  obtain ⟨l0, hl0, hh⟩ := New_ok_inv fuel [] cidr ownIP ld h hnew
  obtain ⟨b, hnet, _, _, hdvd, hb, hl⟩ := ListFromCIDR_ok_inv fuel cidr ip ipNet l0 hparse hl0
  have hrec : reconcile (KV.GetAll [] etcdPrefixLease) [] l0 = ([], l0) := rfl
  rw [hrec] at hh
  simp only at hh
  subst hh
  subst hl
  refine ⟨⟨?_, ⟨?_, ?_, ?_⟩, ?_, ?_⟩, ?_⟩
  · rw [Remove_ipNet, hnet]; rfl
  · intro k1 k2 v h1; exact Option.noConfusion h1
  · intro s e _ k hk; exact Option.noConfusion hk
  · intro k v h1; exact Option.noConfusion h1
  · intro s e hse
    rw [hnet]
    exact Host_of_blockPool b _ ownIP s e hb hdvd hse
  · intro k v h1; exact Option.noConfusion h1
  · intro s nic
    constructor
    · intro h1; exact Option.noConfusion h1
    · intro h1; exact Option.noConfusion h1

theorem Listed_blockPool (b n : Nat) (hb : b + 2 ^ (32 - n) ≤ 4294967296) :
    (blockPool b n).Listed := by
  intro x hx
  obtain ⟨h1, h2, hv⟩ := mem_blockElems _ _ _ _ hx
  have hN : 0 < 2 ^ (32 - n) := Nat.two_pow_pos _
  rw [hv, mapGet_blockPool b n (b + x.id) hb (by omega) (by omega)]
  congr 1
  omega

theorem Listed_Remove (l : IPList) (ip : IP) (hl : l.Listed) : (l.Remove ip).Listed := by
  cases hg : mapGet l.ipIndex ip.String with
  | none => rw [Remove_of_none l ip hg]; exact hl
  | some e =>
    rw [Remove_of_some l ip e hg]
    intro x hx
    obtain ⟨hx1, hx2⟩ := List.mem_filter.mp hx
    simp only [ne_eq, decide_not, Bool.not_eq_true', decide_eq_false_iff_not] at hx2
    have hne : x.Value.String ≠ ip.String := by
      intro hs
      have := hl x hx1
      rw [hs, hg] at this
      exact hx2 (Option.some.inj this).symm
    simp only
    rw [mapGet_mapDelete_of_ne _ _ _ hne]
    exact hl x hx1

theorem Listed_insert (l : IPList) (ip : IP) (m : Nat) (hl : l.Listed)
    (hnew : l.Contains ip = false) : (l.insert ip m).Listed := by
  have hnone : mapGet l.ipIndex ip.String = none := by
    simp only [IPList.Contains] at hnew
    cases hg : mapGet l.ipIndex ip.String with
    | none => rfl
    | some e => simp [hg] at hnew
  intro x hx
  simp only [IPList.insert] at hx ⊢
  rcases mem_listInsertBefore _ _ _ _ hx with h | h
  · subst h
    exact mapGet_mapSet_self _ _ _
  · have hne : x.Value.String ≠ ip.String := by
      intro hs
      have := hl x h
      rw [hs, hnone] at this
      exact Option.noConfusion this
    rw [mapGet_mapSet_of_ne _ _ _ _ hne]
    exact hl x h

theorem Listed_allocateIP (h : Handler) (nic : String) (ip : IP) (hl : h.freeIPs.Listed) :
    (h.allocateIP nic ip).1.freeIPs.Listed := by
  cases hpool : h.freeIPs.Contains ip with
  | false => rw [allocateIP_eq_of_not_free h nic ip hpool]; exact hl
  | true =>
    cases hget : h.kv.Get (getLeaseKey nic) with
    | none =>
      rw [allocateIP_eq_of_free h nic ip hpool hget]
      exact Listed_Remove _ _ hl
    | some v =>
      by_cases hv : v = ip.String
      · subst hv
        rw [allocateIP_eq_of_same h nic ip hpool hget]
        exact Listed_Remove _ _ hl
      · rw [allocateIP_eq_of_other h nic ip v hpool hget hv]; exact hl

theorem Listed_releaseIP (h : Handler) (nic : String) (hc : Consistent h)
    (hl : h.freeIPs.Listed) : (h.releaseIP nic).1.freeIPs.Listed := by
  cases hget : h.kv.Get (getLeaseKey nic) with
  | none => rw [releaseIP_of_no_lease h nic hget]; exact hl
  | some v =>
    rcases Add_cases h.freeIPs (ParseIP v) with ⟨msg, ha⟩ | ⟨msg, ha⟩ | ⟨m, ha, _⟩
    · rw [releaseIP_eq_of_Add_err h nic v msg _ hget ha]; exact hl
    · rw [releaseIP_eq_of_Add_panic h nic v msg _ hget ha]; exact hl
    · rw [releaseIP_eq_of_Add_ok h nic v _ hget ha]
      apply Listed_insert _ _ _ hl
      rw [Bool.eq_false_iff]
      intro hcon
      obtain ⟨e, he⟩ : ∃ e, mapGet h.freeIPs.ipIndex (ParseIP v).String = some e := by
        simp only [IPList.Contains] at hcon
        exact Option.isSome_iff_exists.mp hcon
      rw [hc.text _ _ hget] at he
      exact hc.unleased v e he _ hget

theorem Listed_call (h : Handler) (c : Call) (hc : Consistent h) (hl : h.freeIPs.Listed) :
    (h.call c).1.freeIPs.Listed := by
  rcases call_cases h c with h1 | ⟨nic, ip, h1⟩ | ⟨nic, h1⟩ | ⟨_, nic, ip, h1⟩ | ⟨_, nic, h1⟩
  · rw [h1]; exact hl
  · rw [h1]; exact Listed_allocateIP h nic ip hl
  · rw [h1]; exact Listed_releaseIP h nic hc hl
  · rw [h1]; exact hl
  · rw [h1]; exact hl

theorem Listed_runReturned (ipNet : IPNet) (ownIP : IP) (calls : List Call) :
    ∀ h h1 : Handler, (∀ c ∈ calls, c.allocSettled = true) → Sound ipNet ownIP h →
      h.freeIPs.Listed → h.runReturned calls = some h1 → h1.freeIPs.Listed := by
  induction calls with
  | nil =>
    intro h h1 _ _ hl hr
    simp only [Handler.runReturned, Option.some.injEq] at hr
    subst hr
    exact hl
  | cons c cs ih =>
    intro h h1 hset hs hl hr
    have hs2 := Sound_call ipNet ownIP h c (hset c (List.mem_cons_self c cs)) hs
    have hl2 := Listed_call h c hs.consistent hl
    have hrest : ∀ d ∈ cs, d.allocSettled = true :=
      fun d hd => hset d (List.mem_cons_of_mem c hd)
    simp only [Handler.runReturned] at hr
    rcases hc : h.call c with ⟨h2, r⟩
    rw [hc] at hr hs2 hl2
    cases r with
    | panic msg => simp at hr
    | ok v => exact ih h2 h1 hrest hs2 hl2 hr
    | err msg => exact ih h2 h1 hrest hs2 hl2 hr

theorem Listed_New (fuel : Nat) (cidr : String) (ownIP : IP) (ld : Nat) (h : Handler)
    (hnew : New fuel [] cidr ownIP ld = some (.ok h)) : h.freeIPs.Listed := by
  obtain ⟨l0, hl0, hh⟩ := New_ok_inv fuel [] cidr ownIP ld h hnew
  obtain ⟨ip, ipNet, hparse⟩ := ListFromCIDR_ok_parse fuel cidr l0 hl0
  obtain ⟨b, _, _, _, _, hb, hl⟩ := ListFromCIDR_ok_inv fuel cidr ip ipNet l0 hparse hl0
  have hrec : reconcile (KV.GetAll [] etcdPrefixLease) [] l0 = ([], l0) := rfl
  rw [hrec] at hh
  subst hh
  subst hl
  exact Listed_Remove _ _ (Listed_blockPool b _ hb)

/-- Claim C16, as amended: for a single handler built by `New` over an empty
store, after any sequence of `allocateIP` and `releaseIP` calls that all
return, none of them an `allocateIP` that returns a store error after its
transaction was committed, every address the pool contains lies in the
configured network, is neither its first (network) nor its last (broadcast)
address, is not the own address of the server, and is not the value of any
entry of the store; and every address held by an element of the list is
contained in the pool. -/
theorem pool_addresses_are_free_hosts (fuel : Nat) (cidr : String) (ip : IP) (ipNet : IPNet)
    (ownIP : IP) (ld : Nat) (h h1 : Handler) (calls : List Call)
    (hparse : ParseCIDR cidr = some (ip, ipNet))
    (hnew : New fuel [] cidr ownIP ld = some (.ok h))
    (hset : ∀ c ∈ calls, c.allocSettled = true)
    (hrun : h.runReturned calls = some h1) :
    (∀ x : IP, h1.freeIPs.Contains x = true →
      ipNet.Contains x = true ∧ x ≠ ipNet.IP ∧ x ≠ ipNet.last ∧ x ≠ ownIP ∧
      ∀ key, h1.kv.Get key ≠ some x.String) ∧
    (∀ e ∈ h1.freeIPs.internalList, h1.freeIPs.Contains e.Value = true) := by
  obtain ⟨hs0, _⟩ := Sound_Mirror_New fuel cidr ip ipNet ownIP ld h hparse hnew
  have hs := Sound_runReturned ipNet ownIP calls h h1 hset hs0 hrun
  have hl := Listed_runReturned ipNet ownIP calls h h1 hset hs0
    (Listed_New fuel cidr ownIP ld h hnew) hrun
  refine ⟨?_, ?_⟩
  · intro x hx
    obtain ⟨e, he⟩ : ∃ e, mapGet h1.freeIPs.ipIndex x.String = some e := by
      simp only [IPList.Contains] at hx
      exact Option.isSome_iff_exists.mp hx
    obtain ⟨y, hy, hhost⟩ := hs.pool _ e he
    have hxy : x = y := String_injective hy
    subst hxy
    exact ⟨hhost.1, hhost.2.1, hhost.2.2.1, hhost.2.2.2, hs.consistent.unleased _ e he⟩
  · intro e he
    simp only [IPList.Contains, hl e he, Option.isSome_some]

/-- Claim C16 (fails as stated): on the handler built by `New` for
`10.0.0.0/29` over an empty store, an `allocateIP` of `10.0.0.2` for `testMAC`
whose commit is answered and whose `Get` fails returns an error (it does not
panic) and leaves the handler in the state `retryHandler`: the pool contains
`10.0.0.2`, and the store holds `10.0.0.2` as the lease of `testMAC`. -/
theorem pool_contains_leased_address_after_store_error :
    New 10 [] "10.0.0.0/29" (ipv4 10 0 0 1) 43200 = some (.ok sampleHandler) ∧
    (sampleHandler.allocateIPWith .answered .failed testMAC (ipv4 10 0 0 2)).2 =
      .err "failed to load lease" ∧
    sampleHandler.runReturned [.allocateIP testMAC (ipv4 10 0 0 2) .answered .failed] =
      some retryHandler ∧
    retryHandler.freeIPs.Contains (ipv4 10 0 0 2) = true ∧
    retryHandler.kv.Get (getLeaseKey testMAC) = some (ipv4 10 0 0 2).String ∧
    ¬ (∀ x : IP, retryHandler.freeIPs.Contains x = true →
        ∀ key, retryHandler.kv.Get key ≠ some x.String) := by
  refine ⟨sampleHandler_eq_New, by decide, by decide, by decide, by decide, ?_⟩
  intro hall
  exact hall (ipv4 10 0 0 2) (by decide) (getLeaseKey testMAC) (by decide)

/-- Claim C20, as amended: for a single handler built by `New` over an empty
store, after any sequence of `allocateIP` and `releaseIP` calls that all
return, none of them returning a store error after a write of it was applied
(the committed transaction of `allocateIP`, the delete of `releaseIP`),
`ipToNic` maps a text to a client exactly when the store holds that text under
the lease key of the client. -/
theorem ipToNic_mirrors_store (fuel : Nat) (cidr : String) (ownIP : IP) (ld : Nat)
    (h h1 : Handler) (calls : List Call)
    (hnew : New fuel [] cidr ownIP ld = some (.ok h))
    (hset : ∀ c ∈ calls, c.settled = true)
    (hrun : h.runReturned calls = some h1) :
    ∀ (s nic : String),
      mapGet h1.ipToNic s = some nic ↔ h1.kv.Get (getLeaseKey nic) = some s := by
  obtain ⟨l0, hl0, _⟩ := New_ok_inv fuel [] cidr ownIP ld h hnew
  obtain ⟨ip, ipNet, hparse⟩ := ListFromCIDR_ok_parse fuel cidr l0 hl0
  obtain ⟨hs0, hm0⟩ := Sound_Mirror_New fuel cidr ip ipNet ownIP ld h hparse hnew
  exact (Sound_Mirror_runReturned ipNet ownIP calls h h1 hset hs0 hm0 hrun).2

/-- Claim C20 (fails as stated): on the handler built by `New` for
`10.0.0.0/29` over an empty store, (1) an `allocateIP` whose commit is
answered and whose `Get` fails returns an error and leaves the lease of
`testMAC` for `10.0.0.2` in the store while `ipToNic` has no entry for
`10.0.0.2`; (2) after a successful `allocateIP`, a `releaseIP` whose delete
fails after it was applied returns an error and leaves `ipToNic` with the
entry for `10.0.0.2` while the store holds no lease. -/
theorem ipToNic_differs_from_store_after_store_error :
    New 10 [] "10.0.0.0/29" (ipv4 10 0 0 1) 43200 = some (.ok sampleHandler) ∧
    sampleHandler.runReturned [.allocateIP testMAC (ipv4 10 0 0 2) .answered .failed] =
      some retryHandler ∧
    retryHandler.kv.Get (getLeaseKey testMAC) = some "10.0.0.2" ∧
    mapGet retryHandler.ipToNic "10.0.0.2" = none ∧
    ¬ Mirror retryHandler ∧
    sampleHandler.runReturned
        [.allocateIP testMAC (ipv4 10 0 0 2) .answered .answered,
          .releaseIP testMAC .answered .appliedThenFailed] =
      some (sampleHandler.run
        [.allocateIP testMAC (ipv4 10 0 0 2) .answered .answered,
          .releaseIP testMAC .answered .appliedThenFailed]) ∧
    mapGet (sampleHandler.run
        [.allocateIP testMAC (ipv4 10 0 0 2) .answered .answered,
          .releaseIP testMAC .answered .appliedThenFailed]).ipToNic "10.0.0.2" =
      some testMAC ∧
    (sampleHandler.run
        [.allocateIP testMAC (ipv4 10 0 0 2) .answered .answered,
          .releaseIP testMAC .answered .appliedThenFailed]).kv.Get (getLeaseKey testMAC) =
      none ∧
    ¬ Mirror (sampleHandler.run
        [.allocateIP testMAC (ipv4 10 0 0 2) .answered .answered,
          .releaseIP testMAC .answered .appliedThenFailed]) := by
  refine ⟨sampleHandler_eq_New, by decide, by decide, by decide, ?_, by decide, by decide,
    by decide, ?_⟩
  · intro hm
    have h := (hm "10.0.0.2" testMAC).mpr (by decide)
    revert h
    decide
  · intro hm
    have h := (hm "10.0.0.2" testMAC).mp (by decide)
    revert h
    decide

/-! ## Startup reconciliation -/

theorem reconcile_Contains (x : IP) :
    ∀ (ls clients : List (String × String)) (l : IPList),
      (reconcile ls clients l).2.Contains x = true ↔
        (l.Contains x = true ∧ ∀ e ∈ ls, ParseIP e.2 ≠ x) := by
  intro ls
  induction ls with
  | nil => intro clients l; simp [reconcile]
  | cons kvs rest ih =>
    intro clients l
    simp only [reconcile]
    rw [ih]
    by_cases hx : ParseIP kvs.2 = x
    · subst hx
      simp [Contains_Remove_self]
    · have hx2 : x ≠ ParseIP kvs.2 := fun h => hx h.symm
      rw [Contains_Remove_of_ne _ _ _ hx2]
      simp [hx]

theorem reconcile_clients_some (s nic : String) :
    ∀ (ls clients : List (String × String)) (l : IPList),
      mapGet (reconcile ls clients l).1 s = some nic →
        mapGet clients s = some nic ∨
        ∃ e ∈ ls, (ParseIP e.2).String = s ∧ getNicFromLeaseKey e.1 = nic := by
  intro ls
  induction ls with
  | nil => intro clients l h; exact Or.inl h
  | cons kvs rest ih =>
    intro clients l h
    simp only [reconcile] at h
    rcases ih _ _ h with h1 | ⟨e, he, h2⟩
    · by_cases hs : s = (ParseIP kvs.2).String
      · rw [hs, mapGet_mapSet_self] at h1
        exact Or.inr ⟨kvs, List.mem_cons_self _ _, hs.symm, Option.some.inj h1⟩
      · rw [mapGet_mapSet_of_ne _ _ _ _ hs] at h1
        exact Or.inl h1
    · exact Or.inr ⟨e, List.mem_cons_of_mem _ he, h2⟩

theorem reconcile_clients_isSome (s : String) :
    ∀ (ls clients : List (String × String)) (l : IPList),
      (mapGet (reconcile ls clients l).1 s).isSome = true ↔
        ((mapGet clients s).isSome = true ∨ ∃ e ∈ ls, (ParseIP e.2).String = s) := by
  intro ls
  induction ls with
  | nil => intro clients l; simp [reconcile]
  | cons kvs rest ih =>
    intro clients l
    simp only [reconcile]
    rw [ih]
    by_cases hs : s = (ParseIP kvs.2).String
    · subst hs
      simp [mapGet_mapSet_self]
    · rw [mapGet_mapSet_of_ne _ _ _ _ hs]
      have hs2 : ¬ (ParseIP kvs.2).String = s := fun h => hs h.symm
      simp [hs2]

theorem getLeaseKey_getNicFromLeaseKey (key : String)
    (h : etcdPrefixLease.data.isPrefixOf key.data = true) :
    getLeaseKey (getNicFromLeaseKey key) = key := by
  have hp : etcdPrefixLease.data <+: key.data := List.isPrefixOf_iff_prefix.mp h
  apply String.ext
  simp only [getLeaseKey, getNicFromLeaseKey, h, if_true, String.data_append]
  exact List.prefix_iff_eq_append.mp hp

theorem mem_GetAll (kv : KV) (p : String) (e : String × String) (h : e ∈ kv.GetAll p) :
    e ∈ kv ∧ p.data.isPrefixOf e.1.data = true := by
  simpa [KV.GetAll, List.mem_filter] using h

/-- The pool and the `ipToNic` map of the handler `New` builds, in terms of
the pool `ListFromCIDR` returns and the listed leases. -/
theorem New_state (fuel : Nat) (kv : KV) (cidr : String) (ownIP : IP) (ld : Nat)
    (l0 : IPList) (h0 : ListFromCIDR fuel cidr = some (.ok l0))
    (hval : ∀ e ∈ kv.GetAll etcdPrefixLease, ∃ a, e.2 = (IP.v4 a).String) :
    ∃ h, New fuel kv cidr ownIP ld = some (.ok h) ∧
      (∀ x : IP, h.freeIPs.Contains x = true ↔
        (l0.Contains x = true ∧ x ≠ ownIP ∧ ∀ e ∈ kv.GetAll etcdPrefixLease, e.2 ≠ x.String)) ∧
      (∀ s : String, (mapGet h.ipToNic s).isSome = true ↔
        ∃ e ∈ kv.GetAll etcdPrefixLease, e.2 = s) ∧
      (∀ s nic : String, mapGet h.ipToNic s = some nic →
        ∃ e ∈ kv.GetAll etcdPrefixLease, e.2 = s ∧ e.1 = getLeaseKey nic) := by
  have htext : ∀ e ∈ kv.GetAll etcdPrefixLease, (ParseIP e.2).String = e.2 := by
    intro e he
    obtain ⟨a, ha⟩ := hval e he
    rw [ha, ParseIP_String]
  refine ⟨_, New_of_ListFromCIDR fuel kv cidr ownIP ld l0 h0, ?_, ?_, ?_⟩
  · intro x
    simp only
    by_cases hx : x = ownIP
    · subst hx
      simp [Contains_Remove_self]
    · rw [Contains_Remove_of_ne _ _ _ hx, reconcile_Contains]
      constructor
      · intro ⟨h1, h2⟩
        refine ⟨h1, hx, ?_⟩
        intro e he hes
        apply h2 e he
        rw [hes, ParseIP_String]
      · intro ⟨h1, _, h2⟩
        refine ⟨h1, ?_⟩
        intro e he hes
        apply h2 e he
        rw [← htext e he, hes]
  · intro s
    simp only
    rw [reconcile_clients_isSome]
    constructor
    · intro h1
      rcases h1 with h1 | ⟨e, he, h2⟩
      · simp [mapGet] at h1
      · exact ⟨e, he, (htext e he).symm.trans h2⟩
    · intro ⟨e, he, h2⟩
      exact Or.inr ⟨e, he, (htext e he).trans h2⟩
  · intro s nic h1
    simp only at h1
    rcases reconcile_clients_some s nic _ _ _ h1 with h2 | ⟨e, he, h2, h3⟩
    · simp [mapGet] at h2
    · refine ⟨e, he, (htext e he).symm.trans h2, ?_⟩
      rw [← h3, getLeaseKey_getNicFromLeaseKey _ (mem_GetAll _ _ _ he).2]

theorem blockPool_Contains_iff (b n : Nat) (hb : b + 2 ^ (32 - n) ≤ 4294967296)
    (hdvd : b % 2 ^ (32 - n) = 0) (x : IP) :
    (blockPool b n).Contains x = true ↔
      ((IPNet.mk (IP.ofNat b) n).Contains x = true ∧ x ≠ IP.ofNat b ∧
        x ≠ (IPNet.mk (IP.ofNat b) n).last) := by
  have hN : 0 < 2 ^ (32 - n) := Nat.two_pow_pos _
  constructor
  · intro hx
    obtain ⟨e, he⟩ : ∃ e, mapGet (blockPool b n).ipIndex x.String = some e := by
      simp only [IPList.Contains] at hx
      exact Option.isSome_iff_exists.mp hx
    obtain ⟨he1, he2, hs⟩ := mapGet_blockPool_some b n _ e he
    have hxe : x = IP.ofNat (b + e) := String_injective hs
    subst hxe
    refine ⟨?_, ?_, ?_⟩
    · rw [Contains_ofNat b n _ (by omega) hb hdvd]
      simp only [decide_eq_true_eq]
      omega
    · exact (ofNat_ne_iff (by omega) (by omega)).mpr (by omega)
    · rw [last_ofNat b n hb]
      exact (ofNat_ne_iff (by omega) (by omega)).mpr (by omega)
  · intro ⟨h1, h2, h3⟩
    rw [last_ofNat b n hb] at h3
    cases x with
    | nil =>
      have hR : (IPNet.mk (IP.ofNat b) n).Contains IP.nil = false := rfl
      rw [hR] at h1
      exact absurd h1 (by decide)
    | v4 y =>
      have hy := y.isLt
      rw [v4_eq_ofNat y] at h1 h2 h3 ⊢
      rw [Contains_ofNat b n y.val hy hb hdvd] at h1
      simp only [decide_eq_true_eq] at h1
      have h2n : y.val ≠ b := fun h => h2 (h ▸ rfl)
      have h3n : y.val ≠ b + (2 ^ (32 - n) - 1) := fun h => h3 (h ▸ rfl)
      simp only [IPList.Contains, blockPool]
      rw [mapGet_mapDelete_of_ne _ _ _ (String_ne_of_ne hy (by omega) h3n),
        mapGet_mapDelete_of_ne _ _ _ (String_ne_of_ne hy (by omega) h2n),
        mapGet_blockIndex b y.val hy _ hb]
      simp [h1]

/-- Claim C13: for every CIDR text that parses as an IPv4 network with a
prefix length from 1 to 30, every own address and every store whose listed
leases have dotted-decimal IPv4 values, `New` returns a handler whose pool
contains an address exactly when the network contains it, it is neither the
first nor the last address of the block, it is not the own address and it is
not the value of a listed lease, and whose `ipToNic` holds exactly the values
of the listed leases, each mapped to a client whose lease key holds it. -/
theorem New_reconciles (fuel : Nat) (kv : KV) (cidr : String) (ip : IP) (ipNet : IPNet)
    (ownIP : IP) (ld : Nat)
    (hparse : ParseCIDR cidr = some (ip, ipNet))
    (hp1 : 1 ≤ ipNet.Mask) (hp30 : ipNet.Mask ≤ 30) (hfuel : 2 ^ (32 - ipNet.Mask) < fuel)
    (hval : ∀ e ∈ kv.GetAll etcdPrefixLease, ∃ a, e.2 = (IP.v4 a).String) :
    ∃ h, New fuel kv cidr ownIP ld = some (.ok h) ∧
      (∀ x : IP, h.freeIPs.Contains x = true ↔
        (ipNet.Contains x = true ∧ x ≠ ipNet.IP ∧ x ≠ ipNet.last ∧ x ≠ ownIP ∧
          ∀ e ∈ kv.GetAll etcdPrefixLease, e.2 ≠ x.String)) ∧
      (∀ s : String, (mapGet h.ipToNic s).isSome = true ↔
        ∃ e ∈ kv.GetAll etcdPrefixLease, e.2 = s) ∧
      (∀ s nic : String, mapGet h.ipToNic s = some nic →
        ∃ e ∈ kv.GetAll etcdPrefixLease, e.2 = s ∧ e.1 = getLeaseKey nic) := by
  obtain ⟨b, hnet, hmask, _, hdvd, hb⟩ := ParseCIDR_block hparse
  have h0 : ListFromCIDR fuel cidr = some (.ok (blockPool b ipNet.Mask)) := by
    rw [hnet] at hparse
    exact ListFromCIDR_eq_blockPool fuel cidr ip b _ hparse hmask hp1 (by omega) hb hdvd hfuel
  obtain ⟨h, hnew, hpool, hkeys, hvals⟩ := New_state fuel kv cidr ownIP ld _ h0 hval
  refine ⟨h, hnew, ?_, hkeys, hvals⟩
  intro x
  rw [hpool, blockPool_Contains_iff b _ hb hdvd, hnet]
  simp only [and_assoc]

theorem getNextFreeIP_of_cons (h : Handler) (e : Element) (es : List Element)
    (hl : h.freeIPs.internalList = e :: es) : h.getNextFreeIP = .ok e.Value := by
  simp [Handler.getNextFreeIP, IPList.Len, IPList.First, hl]

theorem Remove_internalList_of_some (l : IPList) (ip : IP) (e : Nat)
    (hg : mapGet l.ipIndex ip.String = some e) :
    (l.Remove ip).internalList = listRemove l.internalList e := by
  rw [Remove_of_some l ip e hg]

/-- The scenario of the specification: for `10.0.0.0/24` with own address
`10.0.0.1` and an empty store, the pool of the handler excludes `10.0.0.0`,
`10.0.0.255` and `10.0.0.1`, and the next free address is `10.0.0.2`. -/
theorem New_example_24 :
    ∃ h, New 257 [] "10.0.0.0/24" (ipv4 10 0 0 1) 43200 = some (.ok h) ∧
      h.freeIPs.Contains (ipv4 10 0 0 0) = false ∧
      h.freeIPs.Contains (ipv4 10 0 0 255) = false ∧
      h.freeIPs.Contains (ipv4 10 0 0 1) = false ∧
      h.freeIPs.Contains (ipv4 10 0 0 2) = true ∧
      h.getNextFreeIP = .ok (ipv4 10 0 0 2) := by
  have hparse : ParseCIDR "10.0.0.0/24" =
      some (ipv4 10 0 0 0, ⟨IP.ofNat 167772160, 24⟩) := by decide
  have hb : 167772160 + 2 ^ (32 - 24) ≤ 4294967296 := by decide
  have hdvd : 167772160 % 2 ^ (32 - 24) = 0 := by decide
  have h0 := ListFromCIDR_eq_blockPool 257 "10.0.0.0/24" _ 167772160 24 hparse (by decide)
    (by decide) (by decide) hb hdvd (by decide)
  have hnew := New_of_ListFromCIDR 257 [] "10.0.0.0/24" (ipv4 10 0 0 1) 43200 _ h0
  have hrec : ∀ l : IPList, reconcile (KV.GetAll [] etcdPrefixLease) [] l = ([], l) :=
    fun _ => rfl
  rw [hrec] at hnew
  have hown : ipv4 10 0 0 1 = IP.ofNat 167772161 := by decide
  have hidx : mapGet (blockPool 167772160 24).ipIndex (ipv4 10 0 0 1).String = some 1 := by
    rw [hown, mapGet_blockPool 167772160 24 167772161 hb (by decide) (by decide)]
  have hlist : listRemove (blockPool 167772160 24).internalList 1 =
      ⟨2, IP.ofNat 167772162⟩ :: blockElems 167772160 3 252 := by
    have h254 : (blockPool 167772160 24).internalList = blockElems 167772160 1 (253 + 1) := by
      unfold blockPool
      norm_num
    rw [h254, blockElems_cons, listRemove_cons_self,
      listRemove_blockElems_of_not_mem _ _ _ _ (by omega), blockElems_cons]
  refine ⟨⟨ipv4 10 0 0 1, [], (blockPool 167772160 24).Remove (ipv4 10 0 0 1), [], 43200⟩,
    hnew, ?_, ?_, ?_, ?_, ?_⟩
  · dsimp only
    rw [Contains_Remove_of_ne _ _ _ (by decide), Bool.eq_false_iff]
    intro hc
    exact ((blockPool_Contains_iff _ _ hb hdvd _).mp hc).2.1 (by decide)
  · dsimp only
    rw [Contains_Remove_of_ne _ _ _ (by decide), Bool.eq_false_iff]
    intro hc
    have := ((blockPool_Contains_iff _ _ hb hdvd _).mp hc).2.2
    rw [last_ofNat _ _ hb] at this
    exact this (by decide)
  · dsimp only
    exact Contains_Remove_self _ _
  · dsimp only
    rw [Contains_Remove_of_ne _ _ _ (by decide)]
    have h2 : ipv4 10 0 0 2 = IP.ofNat 167772162 := by decide
    simp only [IPList.Contains]
    rw [h2, mapGet_blockPool 167772160 24 167772162 hb (by decide) (by decide)]
    rfl
  · have h2 : ipv4 10 0 0 2 = IP.ofNat 167772162 := by decide
    rw [h2]
    apply getNextFreeIP_of_cons _ ⟨2, IP.ofNat 167772162⟩ (blockElems 167772160 3 252)
    dsimp only
    rw [Remove_internalList_of_some _ _ 1 hidx, hlist]

/-! ## Instances of the theorems -/

theorem Remove_spec_witness :
    ListFromCIDR 10 "10.0.0.0/29" = some (.ok samplePool) ∧
    ((samplePool.runOps [.Remove (ipv4 10 0 0 1), .Add (ipv4 10 0 0 1)]).Remove
      (ipv4 10 0 0 3)).Contains (ipv4 10 0 0 3) = false ∧
    (∀ ip2, ip2 ≠ ipv4 10 0 0 3 →
      ((samplePool.runOps [.Remove (ipv4 10 0 0 1), .Add (ipv4 10 0 0 1)]).Remove
        (ipv4 10 0 0 3)).Contains ip2 =
      (samplePool.runOps [.Remove (ipv4 10 0 0 1), .Add (ipv4 10 0 0 1)]).Contains ip2) ∧
    ((samplePool.runOps [.Remove (ipv4 10 0 0 1), .Add (ipv4 10 0 0 1)]).Remove
      (ipv4 10 0 0 3)).values.filter (fun v => decide (v ≠ ipv4 10 0 0 3)) =
      (samplePool.runOps [.Remove (ipv4 10 0 0 1), .Add (ipv4 10 0 0 1)]).values.filter
        (fun v => decide (v ≠ ipv4 10 0 0 3)) ∧
    ((samplePool.runOps [.Remove (ipv4 10 0 0 1), .Add (ipv4 10 0 0 1)]).Contains
        (ipv4 10 0 0 3) = false →
      (samplePool.runOps [.Remove (ipv4 10 0 0 1), .Add (ipv4 10 0 0 1)]).Remove
        (ipv4 10 0 0 3) =
      samplePool.runOps [.Remove (ipv4 10 0 0 1), .Add (ipv4 10 0 0 1)]) ∧
    ((samplePool.runOps [.Remove (ipv4 10 0 0 1), .Add (ipv4 10 0 0 1)]).Remove
      (ipv4 10 0 0 3)).Remove (ipv4 10 0 0 3) =
      (samplePool.runOps [.Remove (ipv4 10 0 0 1), .Add (ipv4 10 0 0 1)]).Remove
        (ipv4 10 0 0 3) :=
  ⟨samplePool_eq_ListFromCIDR,
    Remove_spec 10 "10.0.0.0/29" samplePool [.Remove (ipv4 10 0 0 1), .Add (ipv4 10 0 0 1)]
      (ipv4 10 0 0 3) samplePool_eq_ListFromCIDR⟩

theorem New_reconciles_witness :
    ParseCIDR "10.0.0.0/29" = some (ipv4 10 0 0 0, ⟨ipv4 10 0 0 0, 29⟩) ∧
    listedStore.GetAll etcdPrefixLease = [("dhcp::leases::00:28:f8:d0:90:35", "10.0.0.2")] ∧
    ∃ h, New 10 listedStore "10.0.0.0/29" (ipv4 10 0 0 1) 43200 = some (.ok h) ∧
      (∀ x : IP, h.freeIPs.Contains x = true ↔
        ((IPNet.mk (ipv4 10 0 0 0) 29).Contains x = true ∧ x ≠ ipv4 10 0 0 0 ∧
          x ≠ (IPNet.mk (ipv4 10 0 0 0) 29).last ∧ x ≠ ipv4 10 0 0 1 ∧
          ∀ e ∈ listedStore.GetAll etcdPrefixLease, e.2 ≠ x.String)) ∧
      (∀ s : String, (mapGet h.ipToNic s).isSome = true ↔
        ∃ e ∈ listedStore.GetAll etcdPrefixLease, e.2 = s) ∧
      (∀ s nic : String, mapGet h.ipToNic s = some nic →
        ∃ e ∈ listedStore.GetAll etcdPrefixLease, e.2 = s ∧ e.1 = getLeaseKey nic) :=
  ⟨by decide, by decide,
    New_reconciles 10 listedStore "10.0.0.0/29" (ipv4 10 0 0 0) ⟨ipv4 10 0 0 0, 29⟩
      (ipv4 10 0 0 1) 43200 (by decide) (by decide) (by decide) (by decide)
      (fun e he => by
        have hl : listedStore.GetAll etcdPrefixLease =
            [("dhcp::leases::00:28:f8:d0:90:35", "10.0.0.2")] := by decide
        rw [hl] at he
        simp only [List.mem_singleton] at he
        subst he
        exact ⟨⟨167772162, by decide⟩, by decide⟩)⟩

theorem pool_addresses_are_free_hosts_witness :
    ParseCIDR "10.0.0.0/29" = some (ipv4 10 0 0 0, ⟨ipv4 10 0 0 0, 29⟩) ∧
    New 10 [] "10.0.0.0/29" (ipv4 10 0 0 1) 43200 = some (.ok sampleHandler) ∧
    (∀ c ∈ sampleCalls, c.allocSettled = true) ∧
    sampleHandler.runReturned sampleCalls = some (sampleHandler.run sampleCalls) ∧
    (∀ x : IP, (sampleHandler.run sampleCalls).freeIPs.Contains x = true →
      (IPNet.mk (ipv4 10 0 0 0) 29).Contains x = true ∧ x ≠ ipv4 10 0 0 0 ∧
      x ≠ (IPNet.mk (ipv4 10 0 0 0) 29).last ∧ x ≠ ipv4 10 0 0 1 ∧
      ∀ key, (sampleHandler.run sampleCalls).kv.Get key ≠ some x.String) ∧
    (∀ e ∈ (sampleHandler.run sampleCalls).freeIPs.internalList,
      (sampleHandler.run sampleCalls).freeIPs.Contains e.Value = true) :=
  ⟨by decide, sampleHandler_eq_New, by decide, by decide,
    pool_addresses_are_free_hosts 10 "10.0.0.0/29" (ipv4 10 0 0 0) ⟨ipv4 10 0 0 0, 29⟩
      (ipv4 10 0 0 1) 43200 sampleHandler (sampleHandler.run sampleCalls) sampleCalls
      (by decide) sampleHandler_eq_New (by decide) (by decide)⟩

theorem ipToNic_mirrors_store_witness :
    New 10 [] "10.0.0.0/29" (ipv4 10 0 0 1) 43200 = some (.ok sampleHandler) ∧
    (∀ c ∈ sampleCalls, c.settled = true) ∧
    sampleHandler.runReturned sampleCalls = some (sampleHandler.run sampleCalls) ∧
    ∀ (s nic : String),
      mapGet (sampleHandler.run sampleCalls).ipToNic s = some nic ↔
        (sampleHandler.run sampleCalls).kv.Get (getLeaseKey nic) = some s :=
  ⟨sampleHandler_eq_New, by decide, by decide,
    ipToNic_mirrors_store 10 "10.0.0.0/29" (ipv4 10 0 0 1) 43200 sampleHandler
      (sampleHandler.run sampleCalls) sampleCalls sampleHandler_eq_New (by decide)
      (by decide)⟩

end GoSense
